import Mathlib

/-!
Verification development for the blog-assistant server (`server.js` and its
variants).  The completion-orchestration pipeline is embedded shallowly:
JavaScript strings become `String`/`List Char`, JSON payloads become an
inductive `Json` type, the regex-chain text cleanup becomes a pipeline of
recursive character scanners, and the network-bound pieces (completion calls,
embedding calls) become oracle parameters.
-/

/-! ## Character classes

These mirror the JavaScript regex character classes used throughout the
source: `\s` (JS whitespace incl. Unicode spaces), `\w` (`[A-Za-z0-9_]`),
`[A-Za-z0-9]`, `[,;:!?]`, `[.,;:!?]`, `[)\]]`, `[ \t]`. -/

def isWsChar (c : Char) : Bool :=
  c = ' ' || c = '\t' || c = '\n' || c = '\r' || c = '\x0b' || c = '\x0c' ||
  c = '\u00A0' || c = '\u1680' || (0x2000 ≤ c.toNat && c.toNat ≤ 0x200a) ||
  c = '\u2028' || c = '\u2029' || c = '\u202F' || c = '\u205F' ||
  c = '\u3000' || c = '\uFEFF'

def isAlnumChar (c : Char) : Bool := c.isAlpha || c.isDigit

def isWordChar (c : Char) : Bool := isAlnumChar c || c = '_'

/-- The class `[,;:!?]` of rule 3 of the normalizer (no period). -/
def isPunctNoDot (c : Char) : Bool :=
  c = ',' || c = ';' || c = ':' || c = '!' || c = '?'

/-- The class `[.,;:!?]` used by rule 4 of the normalizer and by `smartJoin`. -/
def isPunctDot (c : Char) : Bool := c = '.' || isPunctNoDot c

/-- The class `[)\]]` of closing brackets used by `smartJoin`. -/
def isClosingChar (c : Char) : Bool := c = ')' || c = ']'

def isSpaceTab (c : Char) : Bool := c = ' ' || c = '\t'

/-- JS `String.prototype.trim` (drops whitespace from both ends). -/
def jsTrim (s : String) : String :=
  String.mk (((s.toList.dropWhile isWsChar).reverse.dropWhile isWsChar).reverse)

/-! ## TextNormalizer (`normalizeOutputText`)

Each regex replacement of `normalizeOutputText` is one recursive scanner on
the character list.  Scanning is leftmost-match, non-overlapping: after a
match the scan resumes right after the matched text, exactly like a global
`String.replace` in JavaScript. -/

/-- Rule 1: `s.replace(/\r\n?/g, "\n")`. -/
def normalizeCRGo : List Char → List Char
  | [] => []
  | '\r' :: '\n' :: rs => '\n' :: normalizeCRGo rs
  | '\r' :: rest => '\n' :: normalizeCRGo rest
  | c :: rest => c :: normalizeCRGo rest

/-- Rule 2: `s.replace(/([A-Za-z0-9])\.([A-Za-z])/g, "$1. $2")`. -/
def spaceAfterDotGo : List Char → List Char
  | [] => []
  | c1 :: '.' :: c2 :: rs =>
    if isAlnumChar c1 && c2.isAlpha then
      c1 :: '.' :: ' ' :: c2 :: spaceAfterDotGo rs
    else c1 :: spaceAfterDotGo ('.' :: c2 :: rs)
  | c1 :: rest => c1 :: spaceAfterDotGo rest
  termination_by l => l.length
  decreasing_by all_goals simp_arith [List.length_cons]

/-- Rule 3: `s.replace(/([,;:!?])(?=[A-Za-z0-9(])/g, "$1 ")` (zero-width
lookahead: only the punctuation character is consumed). -/
def spaceAfterPunctGo : List Char → List Char
  | [] => []
  | [c] => [c]
  | c1 :: c2 :: rest =>
    if isPunctNoDot c1 && (isAlnumChar c2 || c2 = '(') then
      c1 :: ' ' :: spaceAfterPunctGo (c2 :: rest)
    else c1 :: spaceAfterPunctGo (c2 :: rest)

/-- Whether the first non-whitespace character of `l` is one of `.,;:!?`
(the lookahead used by rule 4). -/
def punctAfterWs (l : List Char) : Bool :=
  match (l.dropWhile isWsChar).head? with
  | some p => isPunctDot p
  | none => false

/-- Rule 4: `s.replace(/\s+([.,;:!?])/g, "$1")`.  A whitespace character is
deleted exactly when the first non-whitespace character after it is one of
`.,;:!?` (equivalently, the regex deletes every maximal whitespace run that
immediately precedes such punctuation, keeping the punctuation). -/
def dropWsBeforePunctGo : List Char → List Char
  | [] => []
  | c :: cs =>
    if isWsChar c && punctAfterWs cs then dropWsBeforePunctGo cs
    else c :: dropWsBeforePunctGo cs

/-- Rule 5: `s.replace(/\be\. ?g\./gi, "e.g.")`.  The boundary `\b` holds when
the previous character is absent or is not a word character; `prevWord`
carries that context. -/
def fixEgGo (prevWord : Bool) : List Char → List Char
  | [] => []
  | e :: '.' :: g :: '.' :: rs =>
    if (e = 'e' || e = 'E') && !prevWord && (g = 'g' || g = 'G') then
      'e' :: '.' :: 'g' :: '.' :: fixEgGo false rs
    else e :: fixEgGo (isWordChar e) ('.' :: g :: '.' :: rs)
  | e :: '.' :: ' ' :: g :: '.' :: rs =>
    if (e = 'e' || e = 'E') && !prevWord && (g = 'g' || g = 'G') then
      'e' :: '.' :: 'g' :: '.' :: fixEgGo false rs
    else e :: fixEgGo (isWordChar e) ('.' :: ' ' :: g :: '.' :: rs)
  | c :: rest => c :: fixEgGo (isWordChar c) rest
  termination_by l => l.length
  decreasing_by all_goals simp_arith [List.length_cons]

/-- Rule 6: `s.replace(/\bi\. ?e\./gi, "i.e.")`. -/
def fixIeGo (prevWord : Bool) : List Char → List Char
  | [] => []
  | i :: '.' :: e :: '.' :: rs =>
    if (i = 'i' || i = 'I') && !prevWord && (e = 'e' || e = 'E') then
      'i' :: '.' :: 'e' :: '.' :: fixIeGo false rs
    else i :: fixIeGo (isWordChar i) ('.' :: e :: '.' :: rs)
  | i :: '.' :: ' ' :: e :: '.' :: rs =>
    if (i = 'i' || i = 'I') && !prevWord && (e = 'e' || e = 'E') then
      'i' :: '.' :: 'e' :: '.' :: fixIeGo false rs
    else i :: fixIeGo (isWordChar i) ('.' :: ' ' :: e :: '.' :: rs)
  | c :: rest => c :: fixIeGo (isWordChar c) rest
  termination_by l => l.length
  decreasing_by all_goals simp_arith [List.length_cons]

/-- Rule 7: `s.replace(/\b([A-Z])\. ?([A-Z])\./g, "$1.$2.")`. -/
def tightenInitialsGo (prevWord : Bool) : List Char → List Char
  | [] => []
  | a :: '.' :: b :: '.' :: rs =>
    if a.isUpper && !prevWord && b.isUpper then
      a :: '.' :: b :: '.' :: tightenInitialsGo false rs
    else a :: tightenInitialsGo (isWordChar a) ('.' :: b :: '.' :: rs)
  | a :: '.' :: ' ' :: b :: '.' :: rs =>
    if a.isUpper && !prevWord && b.isUpper then
      a :: '.' :: b :: '.' :: tightenInitialsGo false rs
    else a :: tightenInitialsGo (isWordChar a) ('.' :: ' ' :: b :: '.' :: rs)
  | c :: rest => c :: tightenInitialsGo (isWordChar c) rest
  termination_by l => l.length
  decreasing_by all_goals simp_arith [List.length_cons]

/-- Rule 8a: `s.replace(/[ \t]{2,}/g, " ")` — every maximal run of two or
more spaces/tabs becomes a single space. -/
def collapseSpacesGo : List Char → List Char
  | [] => []
  | [c] => [c]
  | c :: d :: ds =>
    if isSpaceTab c && isSpaceTab d then
      ' ' :: collapseSpacesGo (ds.dropWhile isSpaceTab)
    else c :: collapseSpacesGo (d :: ds)
  termination_by l => l.length
  decreasing_by
    all_goals simp_arith [List.length_cons]
    exact Nat.le_succ_of_le ((List.dropWhile_sublist _).length_le)

/-- Rule 8b: `s.replace(/\. \./g, ". ")` (the second period is dropped). -/
def dropDotSpaceDotGo : List Char → List Char
  | [] => []
  | '.' :: ' ' :: '.' :: rs => '.' :: ' ' :: dropDotSpaceDotGo rs
  | c :: rest => c :: dropDotSpaceDotGo rest

/-- `normalizeOutputText` from the source: the eight replacement rules chained
in order (an empty string is returned unchanged). -/
def normalizeOutputText (s : String) : String :=
  if s.isEmpty then s
  else
    String.mk (dropDotSpaceDotGo (collapseSpacesGo (tightenInitialsGo false
      (fixIeGo false (fixEgGo false (dropWsBeforePunctGo (spaceAfterPunctGo
        (spaceAfterDotGo (normalizeCRGo s.toList)))))))))

/-! ## SmartJoiner (`smartJoin`) -/

/-- The `needSpace` condition of `smartJoin`: `prev` is the last character of
the accumulated output, `next` the first character of the next fragment. -/
def needSpace (prev next : Char) : Bool :=
  (isWordChar prev && isWordChar next) ||
  (isClosingChar prev && isWordChar next) ||
  (isPunctDot prev && !(isWsChar next || isPunctDot next || isClosingChar next))

/-- One iteration of the `smartJoin` loop: skip empty fragments, seed with the
first non-empty one, otherwise append with a space iff `needSpace` holds. -/
def smartJoinStep (out s : String) : String :=
  if s.isEmpty then out
  else if out.isEmpty then s
  else
    match out.toList.getLast?, s.toList.head? with
    | some prev, some next => out ++ (if needSpace prev next then " " else "") ++ s
    | _, _ => out ++ s

/-- `smartJoin` from the source: fold the fragments with `smartJoinStep`, then
apply the final `replace(/\s+([.,;:!?])/g, "$1")` cleanup. -/
def smartJoin (parts : List String) : String :=
  String.mk (dropWsBeforePunctGo (parts.foldl smartJoinStep "").toList)

/-! ## Response payloads (`extractResponseText`)

A payload returned by the completions endpoint is an arbitrarily nested
JSON-like value. -/

inductive Json where
  | null
  | bool (b : Bool)
  | num (n : Int)
  | str (s : String)
  | arr (elems : List Json)
  | obj (fields : List (String × Json))
deriving Repr

/-- Property access `node[k]` (objects only; parsed objects have unique keys,
so first-match lookup is property lookup). -/
def Json.getField : Json → String → Option Json
  | .obj fields, k => fields.lookup k
  | _, _ => none

/-- JavaScript truthiness of a payload value. -/
def Json.truthy : Json → Bool
  | .null => false
  | .bool b => b
  | .num n => n != 0
  | .str s => !s.isEmpty
  | .arr _ => true
  | .obj _ => true

/-- The `ty === "output_text" || ty === "output_text_delta" || ty === "text"
|| ty === "refusal"` test on a node's `type` field. -/
def isOutTypeTag : Option Json → Bool
  | some (.str t) => t = "output_text" || t = "output_text_delta" || t = "text" || t = "refusal"
  | _ => false

/-- The candidate-field loop of `visit`: for each of the five textual keys in
order, collect the field's string value when the inherited role is assistant,
the key is `output_text`, or the node's `type` tag marks output content
(`push` drops empty strings). -/
def candChunks (fields : List (String × Json)) (nextRole : Option String) : List String :=
  ["output_text", "text", "content", "value", "message"].foldr
    (fun k acc =>
      match fields.lookup k with
      | some (.str v) =>
        if nextRole = some "assistant" || k = "output_text" || isOutTypeTag (fields.lookup "type") then
          (if !v.isEmpty then [v] else []) ++ acc
        else acc
      | _ => acc) []

theorem sizeOf_lookup_lt {fields : List (String × Json)} {k : String} {v : Json}
    (h : fields.lookup k = some v) : sizeOf v < sizeOf fields := by
  induction fields with
  | nil => simp [List.lookup] at h
  | cons p fs ih =>
    obtain ⟨a, b⟩ := p
    rw [List.lookup] at h
    by_cases hk : k == a
    · simp [hk] at h
      subst h
      simp
      omega
    · simp [hk] at h
      have := ih h
      simp
      omega

/-- The role context passed down by `visit`: a node's own string `role` field
overrides the inherited one. -/
def nextRoleOf (fields : List (String × Json)) (role : Option String) : Option String :=
  match fields.lookup "role" with
  | some (.str r) => some r
  | _ => role

mutual

/-- The recursive `visit` of `extractResponseText`, returning the list of
collected text fragments in document order. -/
def visit : Json → Option String → List String
  | .null, _ => []
  | .bool _, _ => []
  | .num _, _ => []
  | .str s, _ => if !s.isEmpty then [s] else []
  | .arr xs, role => visitArr xs role
  | .obj fields, role =>
    let nextRole := nextRoleOf fields role
    candChunks fields nextRole ++
    (match h : fields.lookup "delta" with
     | some d =>
       if d.truthy then
         match d with
         | .str v => if !v.isEmpty then [v] else []
         | _ => visit d nextRole
       else []
     | none => []) ++
    visitKeys ["output", "content", "message", "messages", "choices", "arguments", "items", "parts", "data"]
      fields nextRole
  termination_by node _ => (sizeOf node, 0)
  decreasing_by
    · exact Prod.Lex.left _ _ (by simp; try omega)
    · exact Prod.Lex.left _ _ (by
        have hlt := sizeOf_lookup_lt (show List.lookup "delta" fields = some d from by assumption)
        simp
        try omega)
    · exact Prod.Lex.left _ _ (by simp; try omega)

/-- `visit` mapped over an array node (arrays are flattened in order). -/
def visitArr : List Json → Option String → List String
  | [], _ => []
  | x :: xs, role => visit x role ++ visitArr xs role
  termination_by xs _ => (sizeOf xs, 0)
  decreasing_by
    · exact Prod.Lex.left _ _ (by simp; try omega)
    · exact Prod.Lex.left _ _ (by simp; try omega)

/-- The container-key loop of `visit`: recurse into each known container
field whose value is truthy, carrying the role context forward. -/
def visitKeys : List String → List (String × Json) → Option String → List String
  | [], _, _ => []
  | k :: ks, fields, role =>
    (match h : fields.lookup k with
     | some v => if v.truthy then visit v role else []
     | none => []) ++ visitKeys ks fields role
  termination_by ks fields _ => (sizeOf fields, ks.length + 1)
  decreasing_by
    · exact Prod.Lex.left _ _ (sizeOf_lookup_lt (show List.lookup k fields = some v from by assumption))
    · exact Prod.Lex.right _ (by simp [List.length_cons])

end

mutual

/-- Element stringification used by JS `Array.prototype.join`: `null` becomes
the empty string, numbers and booleans their decimal/text form, arrays join
their elements with commas, plain objects become `[object Object]`. -/
def jsItemString : Json → String
  | .null => ""
  | .bool b => if b then "true" else "false"
  | .num n => toString n
  | .str s => s
  | .arr xs => jsArrJoinComma xs
  | .obj _ => "[object Object]"

/-- JS `array.join(",")` (the default array-to-string conversion). -/
def jsArrJoinComma : List Json → String
  | [] => ""
  | [x] => jsItemString x
  | x :: xs => jsItemString x ++ "," ++ jsArrJoinComma xs

end

/-- JS `array.join("")`, as applied to a top-level `output_text` array. -/
def jsJoinEmpty (xs : List Json) : String := String.join (xs.map jsItemString)

/-- The slow path of `extractResponseText`: traverse, smart-join, normalize,
trim. -/
def extractViaTraversal (data : Json) : String :=
  jsTrim (normalizeOutputText (smartJoin (visit data none)))

/-- `extractResponseText` from the source: fast path on a truthy top-level
`output_text` string or non-empty `output_text` array, otherwise the
traversal path. -/
def extractResponseText (data : Json) : String :=
  match data.getField "output_text" with
  | some (.str s) => if !s.isEmpty then normalizeOutputText s else extractViaTraversal data
  | some (.arr xs) => if !xs.isEmpty then normalizeOutputText (jsJoinEmpty xs) else extractViaTraversal data
  | _ => extractViaTraversal data

/-! ## Token budgets and the continuation loop (`completeWithAutoContinue`) -/

/-- `MAX_TOKEN_CAP = Math.max(128, Number(env || 3500))`: whatever the
environment supplies, the cap is at least 128. -/
def MAX_TOKEN_CAP (configured : Int) : Int := max 128 configured

/-- `clampTokens(n) = Math.max(64, Math.min(MAX_TOKEN_CAP, n))`, with the cap
passed explicitly. -/
def clampTokens (cap n : Int) : Int := max 64 (min cap n)

/-- `Math.round(tokens * 1.25)` on integer token counts (1.25 and the products
involved are exact in JS doubles, and `Math.round x = ⌊x + 1/2⌋`). -/
def growBudget (t : Int) : Int := Int.fdiv (5 * t + 2) 4

/-- What one `callOnce` produces, as seen by the continuation loop. -/
structure RoundOut where
  text : String
  incompleteReason : Option String

/-- Result of the continuation loop, instrumented with the number of
`callOnce` invocations and the (clamped) budgets each call sent. -/
structure ContinuationOut where
  text : String
  incompleteReason : Option String
  calls : Nat
  sentBudgets : List Int
deriving Repr

/-- The accumulation step `if (text) acc += (acc ? "\n" : "") + text`. -/
def accAppend (acc text : String) : String :=
  if !text.isEmpty then (if !acc.isEmpty then acc ++ "\n" ++ text else text) else acc

/-- The `for` loop of `completeWithAutoContinue`.  The network round is
abstracted as `oracle : round index ↦ (extracted text, incomplete reason)`;
`callOnce` clamps the budget it actually sends (`max_output_tokens:
clampTokens(tokens)`), so each sent budget is recorded clamped.  `i` is the
current round index and `fuel` the number of remaining iterations. -/
def autoContinueGo (oracle : Nat → RoundOut) (cap : Int) :
    Nat → Nat → String → Int → Option String → List Int → ContinuationOut
  | i, 0, acc, _, lastReason, sent => ⟨acc, lastReason, i, sent⟩
  | i, fuel + 1, acc, tokens, _, sent =>
    let r := oracle i
    let sent2 := sent ++ [clampTokens cap tokens]
    let acc2 := accAppend acc r.text
    if r.incompleteReason ≠ some "max_output_tokens" then
      ⟨acc2, r.incompleteReason, i + 1, sent2⟩
    else
      autoContinueGo oracle cap (i + 1) fuel acc2 (clampTokens cap (growBudget tokens))
        r.incompleteReason sent2

/-- `completeWithAutoContinue(messages, tokens, { rounds })`: run at most
`Math.max(1, rounds)` rounds starting from budget `tokens`. -/
def completeWithAutoContinue (oracle : Nat → RoundOut) (cap tokens : Int) (rounds : Int) :
    ContinuationOut :=
  autoContinueGo oracle cap 0 (max 1 rounds).toNat "" tokens none []

/-! ## RetrievalRanker (`retrieveSimilar`)

The floating-point cosine similarity is abstracted as a parameter `sim`
(a deterministic function of the two embedding vectors, which is all the
selection logic depends on); the embedding network call is abstracted as an
`Except` oracle. -/

structure RagRecord where
  title : String
  file : String
  content : String
  embedding : List ℚ
deriving Repr, DecidableEq

structure RagIndex where
  records : List RagRecord
deriving Repr

structure RetrievedChunk where
  title : String
  file : String
  content : String
  score : ℚ
deriving Repr, DecidableEq

/-- `records.map(r => ({...r, score: cosineSim(qVec, r.embedding)}))` followed
by the stable descending sort `.sort((a,b) => b.score - a.score)`. -/
def scoredRecords (sim : List ℚ → List ℚ → ℚ) (qVec : List ℚ) (records : List RagRecord) :
    List RetrievedChunk :=
  ((records.map fun r => RetrievedChunk.mk r.title r.file r.content (sim qVec r.embedding))).mergeSort
    (fun a b => decide (b.score ≤ a.score))

/-- The greedy selection loop of `retrieveSimilar`: stop at `topK` results
(`room` is how many slots remain), stop when fewer than 200 budget characters
remain, otherwise take the record with its content truncated to the remaining
budget (`remaining = Math.max(0, maxCharsTotal - used)`; ℕ subtraction). -/
def selectChunksGo : List RetrievedChunk → Nat → Nat → Nat → List RetrievedChunk
  | [], _, _, _ => []
  | r :: rest, room, maxChars, used =>
    if room = 0 then []
    else
      let remaining := maxChars - used
      if remaining < 200 then []
      else
        let snippet := String.mk (r.content.toList.take remaining)
        { r with content := snippet } ::
          selectChunksGo rest (room - 1) maxChars (used + snippet.length)

/-- `retrieveSimilar(query, { topK, maxCharsTotal })`: empty (or absent)
corpus short-circuits to `[]` before the embedding call; an embedding failure
propagates as an error; otherwise score, sort descending, and greedily select
under the character budget. -/
def retrieveSimilar (sim : List ℚ → List ℚ → ℚ) (ragIndex : Option RagIndex)
    (embedResult : Except String (List ℚ)) (topK maxChars : Nat) :
    Except String (List RetrievedChunk) :=
  match ragIndex with
  | none => .ok []
  | some idx =>
    if idx.records.isEmpty then .ok []
    else
      match embedResult with
      | .error e => .error e
      | .ok qVec => .ok (selectChunksGo (scoredRecords sim qVec idx.records) topK maxChars 0)

/-! ## PromptBuilder (`styleInstruction`, `buildMessages`, RAG variant) -/

def tonePhrases : List (String × String) := [
  ("balanced", "Use a balanced, approachable professional tone."),
  ("formal", "Use a formal, executive-ready tone with precise language."),
  ("casual", "Use a casual, conversational tone with plain language."),
  ("bold", "Use a bold, persuasive tone with clear calls to action."),
  ("friendly", "Use a warm, friendly tone that feels encouraging."),
  ("authoritative", "Use an authoritative, research-backed tone with confident statements."),
  ("storytelling", "Use a storytelling tone with narrative hooks and vivid examples.")]

def lengthPhrases : List (String × String) := [
  ("concise", "Target ~600 words. Be tight and focused."),
  ("standard", "Target ~900 words with clear sections."),
  ("detailed", "Target 1200–1500 words with rich detail and examples."),
  ("ultra", "Target 2000+ words with exhaustive coverage and case-style depth.")]

/-- The method-valued own properties of `Object.prototype`: a bracket access
`toneMap[k]` on an object literal finds these inherited members when `k` is
not an own key. -/
def protoFnNames : List String :=
  ["hasOwnProperty", "isPrototypeOf", "propertyIsEnumerable", "toLocaleString",
   "toString", "valueOf", "__defineGetter__", "__defineSetter__",
   "__lookupGetter__", "__lookupSetter__"]

/-- How Node stringifies a native function inside a template literal. -/
def jsNativeFnString (n : String) : String :=
  "function " ++ n ++ "() \x7b [native code] \x7d"

/-- Bracket access resolved on `Object.prototype` (already stringified as the
template literal will): `constructor` is the `Object` constructor, the method
names are native functions, and `__proto__` is `Object.prototype` itself,
which stringifies as `[object Object]`.  All of these are truthy, so `||`
does not replace them with the fallback phrase. -/
def protoGet (k : String) : Option String :=
  if k = "constructor" then some (jsNativeFnString "Object")
  else if k ∈ protoFnNames then some (jsNativeFnString k)
  else if k = "__proto__" then some "[object Object]"
  else none

/-- JS `obj[k]` on an object literal with string-valued own properties: own
key first, then the prototype chain; `none` models `undefined`.  (Every own
value here is a non-empty string, so value truthiness coincides with
presence.) -/
def jsObjGetStr (own : List (String × String)) (k : String) : Option String :=
  match own.lookup k with
  | some v => some v
  | none => protoGet k

/-- `styleInstruction(tone, length)`: `toneMap[tone] || toneMap.balanced` and
`lengthMap[length] || lengthMap.standard`, interpolated with one space.  The
bracket access can hit `Object.prototype` members, which are truthy, so such
keys do NOT fall back. -/
def styleInstruction (tone length : String) : String :=
  (jsObjGetStr tonePhrases tone).getD "Use a balanced, approachable professional tone." ++ " " ++
    (jsObjGetStr lengthPhrases length).getD "Target ~900 words with clear sections."

structure Message where
  role : String
  content : String
deriving Repr

/-- The reference-excerpts block body: one block per retrieved chunk, joined
with blank lines. -/
def referenceBlocks (retrieved : List RetrievedChunk) : String :=
  String.intercalate "\n\n"
    (retrieved.enum.map fun p =>
      "— Source " ++ toString (p.1 + 1) ++ ": " ++ p.2.title ++ "\n" ++ jsTrim p.2.content)

def baseSystemText : String :=
  "You are a blog writing assistant trained in Hanza Stephens\x27 voice and style. " ++
  "Write as a calm, strategic operator: practical, structured, and insightful. " ++
  "Favor clear section headings, bullets, and concrete frameworks over fluff."

def formattingRulesText : String :=
  "Format with clean markdown: use H1/H2/H3 headings, bullets, numbered steps, and code fences for templates where helpful. " ++
  "Avoid emojis unless the user asks. Keep advice concrete and de-jargonized."

/-- `buildMessages(userPrompt, tone, length, retrieved)` of the RAG server,
with the module-level `STYLE_GUIDE` passed explicitly. -/
def buildMessages (styleGuide userPrompt tone length : String)
    (retrieved : List RetrievedChunk) : List Message :=
  let style := styleInstruction tone length
  let guide :=
    if !styleGuide.isEmpty then
      "\n\n### VOICE GUIDE (Highest priority)\n" ++ styleGuide ++ "\n\nFollow this guide strictly."
    else ""
  let refs :=
    if !retrieved.isEmpty then
      "\n\n### REFERENCE EXCERPTS (Use for tone & examples; do not cite verbatim)\n" ++
        referenceBlocks retrieved
    else ""
  [Message.mk "system" (baseSystemText ++ guide ++ "\n\n" ++ formattingRulesText ++ refs),
   Message.mk "system" ("Stylistic guidance: " ++ style),
   Message.mk "user" userPrompt]

/-! ## `extractUserRequest`

`extractUserRequest` first looks for the case-insensitive marker
`USER REQUEST:` (regex `/USER REQUEST:\s*([\s\S]*)$/i`); failing that it
strips leading meta blocks with three global, case-insensitive, multiline
replaces whose bodies run lazily up to a `---` delimiter line
(`(?:^-{3,}\s*$|\n---\s*\n)`). -/

/-- Case-insensitive prefix test (`pat` given in lowercase). -/
def startsWithCI : List Char → List Char → Bool
  | [], _ => true
  | _ :: _, [] => false
  | p :: ps, c :: cs => c.toLower = p && startsWithCI ps cs

/-- Leftmost case-insensitive occurrence of `USER REQUEST:`; returns the text
after the marker. -/
def markerSplitGo : List Char → Option (List Char)
  | [] => none
  | c :: cs =>
    if startsWithCI "user request:".toList (c :: cs) then some (List.drop 13 (c :: cs))
    else markerSplitGo cs

/-- `$` of the terminator `^-{3,}\s*$` in multiline mode: end of input or a
position just before a newline. -/
def dollarOk : List Char → Bool
  | [] => true
  | '\n' :: _ => true
  | _ => false

/-- Greedy `\s*$`: drop the longest whitespace prefix (of length at most `k`)
after which `$` holds, backtracking downwards. -/
def greedyWsDollar : Nat → List Char → Option (List Char)
  | 0, rest => if dollarOk rest then some rest else none
  | k + 1, rest =>
    if dollarOk (rest.drop (k + 1)) then some (rest.drop (k + 1))
    else greedyWsDollar k rest

/-- Greedy `\s*\n`: drop the longest whitespace prefix (of length at most `k`)
that is immediately followed by a newline, consuming that newline. -/
def greedyWsNewline : Nat → List Char → Option (List Char)
  | 0, rest => match rest with | '\n' :: rs => some rs | _ => none
  | k + 1, rest =>
    match rest.drop (k + 1) with
    | '\n' :: rs => some rs
    | _ => greedyWsNewline k rest

/-- Terminator alternative `^-{3,}\s*$` (multiline `^`/`$`): only at a line
start; three or more hyphens, greedy trailing whitespace, then a line end.
The consumed text ends in a non-newline, so scanning resumes mid-line. -/
def delimLineMatch (atLineStart : Bool) (l : List Char) : Option (List Char) :=
  if !atLineStart then none
  else
    let hyphens := l.takeWhile (· = '-')
    if hyphens.length < 3 then none
    else
      let rest := l.drop hyphens.length
      greedyWsDollar (rest.takeWhile isWsChar).length rest

/-- Terminator alternative `\n---\s*\n`: consumes the closing newline, so
scanning resumes at a line start. -/
def delimInlineMatch : List Char → Option (List Char)
  | '\n' :: '-' :: '-' :: '-' :: rest =>
    greedyWsNewline (rest.takeWhile isWsChar).length rest
  | _ => none

/-- The block terminator `(?:^-{3,}\s*$|\n---\s*\n)`; returns the remainder
and whether the next scan position is at a line start. -/
def blockTermMatch (atLineStart : Bool) (l : List Char) : Option (Bool × List Char) :=
  match delimLineMatch atLineStart l with
  | some rest => some (false, rest)
  | none =>
    match delimInlineMatch l with
    | some rest => some (true, rest)
    | none => none

/-- Lazy `[\s\S]*?` up to the earliest terminator position. -/
def lazyUntilTerm (atLineStart : Bool) (l : List Char) : Option (Bool × List Char) :=
  match blockTermMatch atLineStart l with
  | some res => some res
  | none =>
    match l with
    | [] => none
    | c :: cs => lazyUntilTerm (c = '\n') cs

/-- Case-insensitive token match: returns the remainder. -/
def matchTokenCI (pat : List Char) (l : List Char) : Option (List Char) :=
  if startsWithCI pat l then some (l.drop pat.length) else none

/-- Header of `/VOICE\s*&\s*STYLE …/`. -/
def voiceStyleHeader (_atLineStart : Bool) (l : List Char) : Option (List Char) := do
  let l1 ← matchTokenCI "voice".toList l
  let l2 := l1.dropWhile isWsChar
  let l3 ← match l2 with | '&' :: r => some r | _ => none
  matchTokenCI "style".toList (l3.dropWhile isWsChar)

/-- Header of `/CONTEXT\s*EXCERPTS: …/`. -/
def contextExcerptsHeader (_atLineStart : Bool) (l : List Char) : Option (List Char) := do
  let l1 ← matchTokenCI "context".toList l
  matchTokenCI "excerpts:".toList (l1.dropWhile isWsChar)

/-- Header of `/^INSTRUCTIONS: …/` (anchored at a line start). -/
def instructionsHeader (atLineStart : Bool) (l : List Char) : Option (List Char) :=
  if atLineStart then matchTokenCI "instructions:".toList l else none

/-- One global replace-with-empty pass: at each position try
`header · [\s\S]*? · terminator`; on a match drop it and resume after it,
otherwise advance one character.  `fuel` (initially the length) bounds the
iteration count; every step consumes at least one character. -/
def stripPassGo (header : Bool → List Char → Option (List Char)) :
    Nat → Bool → List Char → List Char
  | 0, _, l => l
  | fuel + 1, atLineStart, l =>
    match l with
    | [] => []
    | c :: cs =>
      match header atLineStart l with
      | some afterHeader =>
        match lazyUntilTerm false afterHeader with
        | some (nextLS, rest) => stripPassGo header fuel nextLS rest
        | none => c :: stripPassGo header fuel (c = '\n') cs
      | none => c :: stripPassGo header fuel (c = '\n') cs

def stripPass (header : Bool → List Char → Option (List Char)) (l : List Char) : List Char :=
  stripPassGo header l.length true l

/-- The three meta-block strips of `extractUserRequest`, in source order. -/
def stripMetaBlocks (s : String) : String :=
  String.mk (stripPass instructionsHeader (stripPass contextExcerptsHeader
    (stripPass voiceStyleHeader s.toList)))

/-- `extractUserRequest` from the source. -/
def extractUserRequest (s : String) : String :=
  match markerSplitGo s.toList with
  | some rest =>
    let cap := rest.dropWhile isWsChar
    if !cap.isEmpty then jsTrim (String.mk cap)
    else
      let cleaned := jsTrim (stripMetaBlocks s)
      if !cleaned.isEmpty then cleaned else jsTrim s
  | none =>
    let cleaned := jsTrim (stripMetaBlocks s)
    if !cleaned.isEmpty then cleaned else jsTrim s

/-! ## Claim theorems -/

/-! ### C8: the smart joiner -/

/-- "word characters" as the spec uses the term (JS `\w`). -/
def SpecWordChar (c : Char) : Prop := c.isAlpha = true ∨ c.isDigit = true ∨ c = '_'

/-- "closing bracket ( `)` / `]` )". -/
def SpecClosing (c : Char) : Prop := c = ')' ∨ c = ']'

/-- "terminal/medial punctuation (`.`,`,`,`;`,`:`,`!`,`?`)". -/
def SpecPunct (c : Char) : Prop :=
  c = '.' ∨ c = ',' ∨ c = ';' ∨ c = ':' ∨ c = '!' ∨ c = '?'

/-- The spacing condition exactly as the spec states it: both word
characters, or closing bracket before word character, or punctuation before
something that is not whitespace, punctuation, or a closing bracket. -/
def SpecNeedSpace (prev next : Char) : Prop :=
  (SpecWordChar prev ∧ SpecWordChar next) ∨
  (SpecClosing prev ∧ SpecWordChar next) ∨
  (SpecPunct prev ∧ ¬(isWsChar next = true ∨ SpecPunct next ∨ SpecClosing next))

theorem isWordChar_iff (c : Char) : isWordChar c = true ↔ SpecWordChar c := by
  simp [isWordChar, isAlnumChar, SpecWordChar, Bool.or_eq_true, decide_eq_true_iff, or_assoc]

theorem isClosingChar_iff (c : Char) : isClosingChar c = true ↔ SpecClosing c := by
  simp [isClosingChar, SpecClosing, Bool.or_eq_true, decide_eq_true_iff]

theorem isPunctDot_iff (c : Char) : isPunctDot c = true ↔ SpecPunct c := by
  simp [isPunctDot, isPunctNoDot, SpecPunct, Bool.or_eq_true, decide_eq_true_iff, or_assoc]

theorem needSpace_iff_spec (prev next : Char) :
    needSpace prev next = true ↔ SpecNeedSpace prev next := by
  have hwF : ∀ c : Char, isWordChar c = false ↔ ¬SpecWordChar c := fun c => by
    rw [← isWordChar_iff c]; simp
  have hcF : ∀ c : Char, isClosingChar c = false ↔ ¬SpecClosing c := fun c => by
    rw [← isClosingChar_iff c]; simp
  have hpF : ∀ c : Char, isPunctDot c = false ↔ ¬SpecPunct c := fun c => by
    rw [← isPunctDot_iff c]; simp
  have hwsF : ∀ c : Char, isWsChar c = false ↔ ¬(isWsChar c = true) := fun c => by simp
  simp only [needSpace, Bool.or_eq_true, Bool.and_eq_true, Bool.not_eq_true',
    Bool.or_eq_false_iff, isWordChar_iff, isClosingChar_iff, isPunctDot_iff,
    hwF, hcF, hpF, hwsF, SpecNeedSpace]
  tauto

set_option maxHeartbeats 1000000 in
/-- C8: `smartJoin` meets the spec's three examples, joining two non-empty
fragments inserts exactly one space precisely under `needSpace`, and
`needSpace` coincides with the spec's word/closing-bracket/punctuation rule. -/
theorem smartJoin_meets_spec :
    smartJoin ["end.", "Next"] = "end. Next" ∧
    smartJoin ["word", ")"] = "word)" ∧
    smartJoin ["", "x"] = "x" ∧
    (∀ out s : String, ¬out.isEmpty → ¬s.isEmpty →
      ∀ prev next, out.toList.getLast? = some prev → s.toList.head? = some next →
        smartJoinStep out s = out ++ (if needSpace prev next then " " else "") ++ s) ∧
    (∀ prev next : Char, needSpace prev next = true ↔ SpecNeedSpace prev next) := by
  refine ⟨by decide, by decide, by decide, ?_, needSpace_iff_spec⟩
  intro out s hout hs prev next hp hn
  rw [Bool.not_eq_true] at hout hs
  simp only [smartJoinStep, hout, hs, Bool.false_eq_true, if_false, hp, hn]

/-- Witness for C8's universally quantified parts at concrete inputs. -/
theorem smartJoin_meets_spec_witness :
    smartJoinStep "ab" "cd" = "ab" ++ " " ++ "cd" :=
  smartJoin_meets_spec.2.2.2.1 "ab" "cd" (by decide) (by decide) 'b' 'c' rfl rfl

/-! ### C3: the `output_text` fast path -/

theorem jsJoinEmpty_strs (ss : List String) : jsJoinEmpty (ss.map Json.str) = String.join ss := by
  rw [jsJoinEmpty, List.map_map]
  congr 1
  have : List.map (jsItemString ∘ Json.str) ss = List.map id ss :=
    List.map_congr_left (fun s _ => by simp [jsItemString])
  rw [this, List.map_id]

/-- C3: when the payload's top-level `output_text` field is a non-empty
string `s`, `extractResponseText` returns `normalizeOutputText s` regardless
of all sibling fields; when it is a non-empty array of strings, it returns
`normalizeOutputText` of their concatenation. -/
theorem extract_fast_path :
    (∀ (fields : List (String × Json)) (s : String),
      fields.lookup "output_text" = some (Json.str s) → s ≠ "" →
      extractResponseText (Json.obj fields) = normalizeOutputText s) ∧
    (∀ (fields : List (String × Json)) (ss : List String),
      fields.lookup "output_text" = some (Json.arr (ss.map Json.str)) → ss ≠ [] →
      extractResponseText (Json.obj fields) = normalizeOutputText (String.join ss)) := by
  constructor
  · intro fields s h hs
    have hg : (Json.obj fields).getField "output_text" = some (Json.str s) := h
    have he : s.isEmpty = false := by
      rw [← Bool.not_eq_true]
      simp [String.isEmpty_iff, hs]
    rw [extractResponseText, hg]
    simp [he]
  · intro fields ss h hss
    have hg : (Json.obj fields).getField "output_text" = some (Json.arr (ss.map Json.str)) := h
    have he : (ss.map Json.str).isEmpty = false := by
      rw [← Bool.not_eq_true]
      simp [List.isEmpty_iff, hss]
    rw [extractResponseText, hg]
    simp [he, jsJoinEmpty_strs]

/-- Witness for C3 at concrete payloads with sibling fields. -/
theorem extract_fast_path_witness :
    extractResponseText (Json.obj [("junk", Json.num 7), ("output_text", Json.str "ok")])
      = normalizeOutputText "ok" ∧
    extractResponseText (Json.obj [("output_text", Json.arr [Json.str "a", Json.str "b"]), ("x", Json.null)])
      = normalizeOutputText (String.join ["a", "b"]) :=
  ⟨extract_fast_path.1 _ "ok" rfl (by decide),
   extract_fast_path.2 [("output_text", Json.arr [Json.str "a", Json.str "b"]), ("x", Json.null)]
     ["a", "b"] rfl (by decide)⟩

/-! ### C1: totality and the empty-extraction case

`extractResponseText` is a total function of the payload by construction
(shallow embedding: every case of the traversal is defined, so no input can
raise).  The theorem below settles the quantitative part: when the payload
offers no candidate fragment — no non-empty top-level `output_text` array and
an empty fragment collection — the result is the empty string. -/

theorem visit_ne_nil_of_output_text_str (fields : List (String × Json)) (s : String)
    (role : Option String)
    (h : fields.lookup "output_text" = some (Json.str s)) (hs : s ≠ "") :
    visit (Json.obj fields) role ≠ [] := by
  have he : s.isEmpty = false := by
    rw [← Bool.not_eq_true]
    simp [String.isEmpty_iff, hs]
  rw [visit]
  simp [candChunks, h, he]

theorem smartJoin_nil : smartJoin [] = "" := by decide

/-- C1: on any payload whose `output_text` field is not a non-empty array and
whose traversal collects no fragment, `extractResponseText` returns `""`
(and, the embedding being total, returns without raising on every payload).
A non-empty string `output_text` needs no separate hypothesis: it would
itself be collected by the traversal, contradicting the empty collection. -/
theorem extract_empty_of_no_fragments (d : Json)
    (harr : ∀ xs, d.getField "output_text" = some (Json.arr xs) → xs = [])
    (hvisit : visit d none = []) : extractResponseText d = "" := by
  have hslow : extractViaTraversal d = "" := by
    rw [extractViaTraversal, hvisit, smartJoin_nil]
    decide
  rw [extractResponseText]
  cases hg : d.getField "output_text" with
  | none => simpa [hg] using hslow
  | some v =>
    cases v with
    | str s =>
      by_cases hse : s.isEmpty
      · simp [hse, hslow]
      · exfalso
        have hs : s ≠ "" := by simpa [String.isEmpty_iff] using hse
        obtain ⟨fields, rfl⟩ : ∃ fields, d = Json.obj fields := by
          cases d with
          | obj fields => exact ⟨fields, rfl⟩
          | null => simp [Json.getField] at hg
          | bool b => simp [Json.getField] at hg
          | num n => simp [Json.getField] at hg
          | str t => simp [Json.getField] at hg
          | arr xs => simp [Json.getField] at hg
        exact visit_ne_nil_of_output_text_str fields s none hg hs hvisit
    | arr xs =>
      have hx : xs = [] := harr xs hg
      subst hx
      simp [hslow]
    | null => simp [hslow]
    | bool b => simp [hslow]
    | num n => simp [hslow]
    | obj fs => simp [hslow]

/-- Witness for C1 at a payload with only non-text fields. -/
theorem extract_empty_witness :
    extractResponseText (Json.obj [("status", Json.str "queued"), ("n", Json.num 3)]) = "" :=
  extract_empty_of_no_fragments _ (by intro xs h; simp [Json.getField, List.lookup] at h)
    (by simp [visit, visitKeys, candChunks, nextRoleOf, List.lookup, Json.truthy, isOutTypeTag])

/-! ### C2: role-guarded collection (amended) -/

/-- A payload as in the claim: an assistant node and a sibling user node,
nested three levels deep under container keys, with the text held in the
(non-container) `text` field. -/
def nestedRolePayload (aText uText : String) : Json :=
  Json.obj [("output", Json.obj [("items", Json.arr [
    Json.obj [("role", Json.str "assistant"), ("text", Json.str aText)],
    Json.obj [("role", Json.str "user"), ("text", Json.str uText)]])])]

/-- C2 (amended): on the claim's nested payload the assistant node's `text`
is collected and the sibling user node's `text` is not — provided the user
node's string sits in a field such as `text` (or `value`) that is not also a
container key.  (For `content`/`message` the container recursion collects the
user string regardless of role; see the counterexample.) -/
theorem nested_assistant_only (a u : String) (ha : a ≠ "") :
    visit (nestedRolePayload a u) none = [a] ∧
    extractResponseText (nestedRolePayload a u)
      = jsTrim (normalizeOutputText (smartJoin [a])) := by
  have he : a.isEmpty = false := by
    rw [← Bool.not_eq_true]
    simp [String.isEmpty_iff, ha]
  have hv : visit (nestedRolePayload a u) none = [a] := by
    simp [nestedRolePayload, visit, visitArr, visitKeys, candChunks, nextRoleOf,
      List.lookup, Json.truthy, isOutTypeTag, he]
  refine ⟨hv, ?_⟩
  rw [show extractResponseText (nestedRolePayload a u) = extractViaTraversal (nestedRolePayload a u)
      from rfl, extractViaTraversal, hv]

/-- Witness for C2's amended theorem at concrete strings. -/
theorem nested_assistant_only_witness :
    visit (nestedRolePayload "Draft." "echo me") none = ["Draft."] :=
  (nested_assistant_only "Draft." "echo me" (by decide)).1

/-- The claim's payload with the user text in the `content` field. -/
def c2Payload : Json :=
  Json.obj [("output", Json.obj [("items", Json.arr [
    Json.obj [("role", Json.str "assistant"), ("text", Json.str "Alpha")],
    Json.obj [("role", Json.str "user"), ("content", Json.str "SECRET")]])])]

unseal spaceAfterDotGo fixEgGo fixIeGo tightenInitialsGo collapseSpacesGo in
/-- C2 counterexample: with the user node's string in its `content` field —
one of the claim's own example fields — the extractor collects and returns
the user text next to the assistant text, because `content` is also one of
the container keys and a bare string reached by container recursion is pushed
unconditionally. -/
theorem user_content_is_collected :
    extractResponseText c2Payload = "Alpha SECRET" := by
  have hv : visit c2Payload none = ["Alpha", "SECRET"] := by
    simp [c2Payload, visit, visitArr, visitKeys, candChunks, nextRoleOf,
      List.lookup, Json.truthy, isOutTypeTag]
    decide
  rw [show extractResponseText c2Payload = extractViaTraversal c2Payload from rfl,
    extractViaTraversal, hv]
  decide

/-! ### C9: the prompt builder -/

theorem lookup_eq_none_of_not_mem_keys {β : Type} {l : List (String × β)} {k : String}
    (h : k ∉ l.map Prod.fst) : l.lookup k = none := by
  induction l with
  | nil => rfl
  | cons p t ih =>
    simp only [List.map_cons, List.mem_cons, not_or] at h
    rw [List.lookup]
    have hb : (k == p.1) = false := by simpa using h.1
    obtain ⟨a, b⟩ := p
    simp only at hb
    simp [hb, ih h.2]

/-- C9 counterexample: the claim says every tone outside the seven known
tones resolves to the balanced phrase, but `toneMap["toString"]` finds the
inherited `Object.prototype.toString`, which is truthy, so the template
interpolates the stringified native function instead of falling back. -/
theorem style_proto_no_fallback :
    ¬ (∀ tone len : String, tone ∉ tonePhrases.map Prod.fst →
        styleInstruction tone len =
          "Use a balanced, approachable professional tone." ++ " " ++
            (jsObjGetStr lengthPhrases len).getD
              "Target ~900 words with clear sections.") := by
  intro h
  have h1 := h "toString" "standard" (by decide)
  exact absurd h1 (by decide)

/-- C9 (amended): `buildMessages` always returns exactly
`[system, system, user]` with the user text verbatim in the final message; an
empty retrieval list yields the exact message list with no reference-excerpts
block; a tone (resp. length) key that is neither a known key nor an
`Object.prototype` member falls back to the balanced (resp. standard) phrase;
a tone that hits the prototype chain instead interpolates the stringified
inherited member; and `tone="formal"`, `length="concise"` resolves to the
formal phrase verbatim. -/
theorem buildMessages_spec (g up tone len : String) (retrieved : List RetrievedChunk) :
    (buildMessages g up tone len retrieved).map Message.role = ["system", "system", "user"] ∧
    (buildMessages g up tone len retrieved).getLast? = some (Message.mk "user" up) ∧
    (buildMessages g up tone len [] =
      [Message.mk "system" (baseSystemText ++
          (if !g.isEmpty then
            "\n\n### VOICE GUIDE (Highest priority)\n" ++ g ++ "\n\nFollow this guide strictly."
          else "") ++ "\n\n" ++ formattingRulesText),
       Message.mk "system" ("Stylistic guidance: " ++ styleInstruction tone len),
       Message.mk "user" up]) ∧
    (tone ∉ tonePhrases.map Prod.fst → protoGet tone = none →
      styleInstruction tone len = "Use a balanced, approachable professional tone." ++ " " ++
        (jsObjGetStr lengthPhrases len).getD "Target ~900 words with clear sections.") ∧
    (len ∉ lengthPhrases.map Prod.fst → protoGet len = none →
      styleInstruction tone len =
        (jsObjGetStr tonePhrases tone).getD "Use a balanced, approachable professional tone." ++ " " ++
        "Target ~900 words with clear sections.") ∧
    (∀ v, tone ∉ tonePhrases.map Prod.fst → protoGet tone = some v →
      styleInstruction tone len = v ++ " " ++
        (jsObjGetStr lengthPhrases len).getD "Target ~900 words with clear sections.") ∧
    styleInstruction "formal" "concise" =
      "Use a formal, executive-ready tone with precise language. Target ~600 words. Be tight and focused." := by
  refine ⟨by simp [buildMessages], by simp [buildMessages], by simp [buildMessages],
    ?_, ?_, ?_, by decide⟩
  · intro h hp
    rw [styleInstruction, jsObjGetStr, lookup_eq_none_of_not_mem_keys h, hp]
    rfl
  · intro h hp
    rw [styleInstruction]
    rw [show jsObjGetStr lengthPhrases len = none from by
      rw [jsObjGetStr, lookup_eq_none_of_not_mem_keys h, hp]]
    rfl
  · intro v h hp
    rw [styleInstruction, jsObjGetStr, lookup_eq_none_of_not_mem_keys h, hp]
    rfl

/-- Witness for C9's fallback and prototype clauses at concrete keys. -/
theorem buildMessages_spec_witness :
    (styleInstruction "snarky" "epic" =
      "Use a balanced, approachable professional tone." ++ " " ++
        (jsObjGetStr lengthPhrases "epic").getD "Target ~900 words with clear sections.") ∧
    (styleInstruction "toString" "concise" =
      jsNativeFnString "toString" ++ " " ++
        (jsObjGetStr lengthPhrases "concise").getD "Target ~900 words with clear sections.") := by
  constructor
  · exact (buildMessages_spec "" "u" "snarky" "epic" []).2.2.2.1 (by decide) (by decide)
  · exact (buildMessages_spec "" "u" "toString" "concise" []).2.2.2.2.2.1
      (jsNativeFnString "toString") (by decide) (by decide)

/-! ### C4: normalizer idempotence (refuted, then amended) -/

unseal spaceAfterDotGo fixEgGo fixIeGo tightenInitialsGo collapseSpacesGo in
/-- C4 counterexample: the normalizer is *not* idempotent.  On `"a.b.c"` the
sentence-period rule inserts a space after the first period only (the global
regex scan cannot see the overlapping second match), and a second application
then rewrites the remaining `"b.c"`:
`normalize "a.b.c" = "a. b.c"` but `normalize "a. b.c" = "a. b. c"`. -/
theorem normalize_not_idempotent :
    normalizeOutputText (normalizeOutputText "a.b.c") ≠ normalizeOutputText "a.b.c" := by
  decide

def DotFree (l : List Char) : Prop := '.' ∉ l

theorem isWs_not_punct {x : Char} (h : isPunctDot x = true) : isWsChar x = false := by
  have hx : x = '.' ∨ x = ',' ∨ x = ';' ∨ x = ':' ∨ x = '!' ∨ x = '?' := by
    simpa [isPunctDot, isPunctNoDot, or_assoc] using h
  rcases hx with h | h | h | h | h | h <;> subst h <;> decide

theorem spaceTab_isWs {x : Char} (h : isSpaceTab x = true) : isWsChar x = true := by
  have hx : x = ' ' ∨ x = '\t' := by simpa [isSpaceTab] using h
  rcases hx with h | h <;> subst h <;> decide

theorem normalizeCRGo_id {l : List Char} (h : '\r' ∉ l) : normalizeCRGo l = l := by
  induction l using normalizeCRGo.induct with
  | case1 => rfl
  | case2 rs ih => simp at h
  | case3 rest ih h2 => simp at h
  | case4 c rest h1 h2 ih =>
    simp only [List.mem_cons, not_or] at h
    rw [normalizeCRGo.eq_def]
    split <;> simp_all

theorem spaceAfterDotGo_id {l : List Char} (h : DotFree l) : spaceAfterDotGo l = l := by
  induction l using spaceAfterDotGo.induct with
  | case1 => simp [spaceAfterDotGo]
  | case2 c1 c2 rs hcond => simp [DotFree] at h
  | case3 c1 c2 rs hcond ih => simp [DotFree] at h
  | case4 c1 rest h1 ih =>
    rw [spaceAfterDotGo.eq_def]
    split <;> simp_all [DotFree]

theorem fixEgGo_id (p : Bool) (l : List Char) (h : DotFree l) : fixEgGo p l = l := by
  induction p, l using fixEgGo.induct with
  | case1 p => simp [fixEgGo]
  | case2 p e g rs hcond => simp [DotFree] at h
  | case3 p e g rs hcond ih => simp [DotFree] at h
  | case4 p e g rs hcond => simp [DotFree] at h
  | case5 p e g rs hcond ih => simp [DotFree] at h
  | case6 p c rest h1 h2 ih =>
    rw [fixEgGo.eq_def]
    split <;> simp_all [DotFree]

theorem fixIeGo_id (p : Bool) (l : List Char) (h : DotFree l) : fixIeGo p l = l := by
  induction p, l using fixIeGo.induct with
  | case1 p => simp [fixIeGo]
  | case2 p i e rs hcond => simp [DotFree] at h
  | case3 p i e rs hcond ih => simp [DotFree] at h
  | case4 p i e rs hcond => simp [DotFree] at h
  | case5 p i e rs hcond ih => simp [DotFree] at h
  | case6 p c rest h1 h2 ih =>
    rw [fixIeGo.eq_def]
    split <;> simp_all [DotFree]

theorem tightenInitialsGo_id (p : Bool) (l : List Char) (h : DotFree l) :
    tightenInitialsGo p l = l := by
  induction p, l using tightenInitialsGo.induct with
  | case1 p => simp [tightenInitialsGo]
  | case2 p a b rs hcond => simp [DotFree] at h
  | case3 p a b rs hcond ih => simp [DotFree] at h
  | case4 p a b rs hcond => simp [DotFree] at h
  | case5 p a b rs hcond ih => simp [DotFree] at h
  | case6 p c rest h1 h2 ih =>
    rw [tightenInitialsGo.eq_def]
    split <;> simp_all [DotFree]

theorem dropDotSpaceDotGo_id {l : List Char} (h : DotFree l) : dropDotSpaceDotGo l = l := by
  induction l using dropDotSpaceDotGo.induct with
  | case1 => rfl
  | case2 rs ih => simp [DotFree] at h
  | case3 c rest h1 ih =>
    rw [dropDotSpaceDotGo.eq_def]
    split <;> simp_all [DotFree]



/-- The pairwise invariant established by rule 3: punctuation is never
immediately followed by an alphanumeric or `(`. -/
def SpacedPunct (l : List Char) : Prop :=
  List.Chain' (fun a b => isPunctNoDot a = true → (isAlnumChar b || b = '(') = false) l

theorem spaceAfterPunctGo_head (c : Char) (cs : List Char) :
    ∃ t, spaceAfterPunctGo (c :: cs) = c :: t := by
  rw [spaceAfterPunctGo.eq_def]
  match cs with
  | [] => exact ⟨[], rfl⟩
  | c2 :: rest =>
    dsimp only
    split
    · exact ⟨_, rfl⟩
    · exact ⟨_, rfl⟩

theorem spaceAfterPunctGo_id {l : List Char} (h : SpacedPunct l) : spaceAfterPunctGo l = l := by
  induction l using spaceAfterPunctGo.induct with
  | case1 => rfl
  | case2 c => rfl
  | case3 c1 c2 rest hcond ih =>
    rw [SpacedPunct, List.chain'_cons] at h
    rw [Bool.and_eq_true] at hcond
    exact absurd (h.1 hcond.1) (by simp [hcond.2])
  | case4 c1 c2 rest hcond ih =>
    rw [SpacedPunct, List.chain'_cons] at h
    rw [spaceAfterPunctGo.eq_def]
    dsimp only
    rw [if_neg (by simpa using hcond)]
    rw [ih h.2]

theorem spaceAfterPunctGo_spaced (l : List Char) : SpacedPunct (spaceAfterPunctGo l) := by
  induction l using spaceAfterPunctGo.induct with
  | case1 => simp [spaceAfterPunctGo, SpacedPunct]
  | case2 c => simp [spaceAfterPunctGo, SpacedPunct]
  | case3 c1 c2 rest hcond ih =>
    rw [spaceAfterPunctGo.eq_def]
    dsimp only
    rw [if_pos hcond]
    obtain ⟨t, ht⟩ := spaceAfterPunctGo_head c2 rest
    rw [SpacedPunct, ht, List.chain'_cons, List.chain'_cons]
    refine ⟨fun _ => by decide, fun hp => absurd hp (by decide), ?_⟩
    rw [SpacedPunct] at ih
    rwa [ht] at ih
  | case4 c1 c2 rest hcond ih =>
    rw [spaceAfterPunctGo.eq_def]
    dsimp only
    rw [if_neg hcond]
    obtain ⟨t, ht⟩ := spaceAfterPunctGo_head c2 rest
    rw [SpacedPunct, ht, List.chain'_cons]
    refine ⟨fun hp => ?_, ?_⟩
    · by_contra hb
      rw [Bool.not_eq_false] at hb
      exact hcond (by simp [hp, hb])
    · rw [SpacedPunct] at ih
      rwa [ht] at ih

theorem spaceAfterPunctGo_not_mem {l : List Char} {c : Char} (h : c ∉ l) (hc : c ≠ ' ') :
    c ∉ spaceAfterPunctGo l := by
  induction l using spaceAfterPunctGo.induct with
  | case1 => simpa [spaceAfterPunctGo]
  | case2 d => simpa [spaceAfterPunctGo] using h
  | case3 c1 c2 rest hcond ih =>
    rw [spaceAfterPunctGo.eq_def]
    dsimp only
    rw [if_pos hcond]
    simp only [List.mem_cons, not_or] at h ⊢
    exact ⟨h.1, hc, fun hm => (ih (by simp [not_or, h.2.1, h.2.2])) hm⟩
  | case4 c1 c2 rest hcond ih =>
    rw [spaceAfterPunctGo.eq_def]
    dsimp only
    rw [if_neg hcond]
    simp only [List.mem_cons, not_or] at h ⊢
    exact ⟨h.1, fun hm => (ih (by simp [not_or, h.2.1, h.2.2])) hm⟩



/-- The pairwise invariant established by rule 4: whitespace is never
immediately followed by `.,;:!?`. -/
def NoWsBeforePunct (l : List Char) : Prop :=
  List.Chain' (fun a b => isWsChar a = true → isPunctDot b = false) l

theorem punct_not_alnumParen {y : Char} (h : isPunctDot y = true) :
    (isAlnumChar y || y = '(') = false := by
  have hx : y = '.' ∨ y = ',' ∨ y = ';' ∨ y = ':' ∨ y = '!' ∨ y = '?' := by
    simpa [isPunctDot, isPunctNoDot, or_assoc] using h
  rcases hx with h | h | h | h | h | h <;> subst h <;> decide

theorem punctAfterWs_cons (c : Char) (cs : List Char) :
    punctAfterWs (c :: cs) = if isWsChar c then punctAfterWs cs else isPunctDot c := by
  rw [punctAfterWs, List.dropWhile]
  by_cases hc : isWsChar c
  · simp [hc, punctAfterWs]
  · simp [hc]

theorem chain_ws_no_punct {c : Char} {cs : List Char}
    (h : NoWsBeforePunct (c :: cs)) (hc : isWsChar c = true) : punctAfterWs cs = false := by
  induction cs generalizing c with
  | nil => rfl
  | cons d ds ih =>
    rw [NoWsBeforePunct, List.chain'_cons] at h
    rw [punctAfterWs_cons]
    by_cases hd : isWsChar d
    · simp only [hd, if_true]
      exact ih h.2 hd
    · simp only [hd, Bool.false_eq_true, if_false]
      exact h.1 hc

theorem dropWsBeforePunctGo_id {l : List Char} (h : NoWsBeforePunct l) :
    dropWsBeforePunctGo l = l := by
  induction l using dropWsBeforePunctGo.induct with
  | case1 => rfl
  | case2 c cs hcond ih =>
    rw [Bool.and_eq_true] at hcond
    exact absurd (chain_ws_no_punct h hcond.1) (by simp [hcond.2])
  | case3 c cs hcond ih =>
    rw [dropWsBeforePunctGo.eq_def]
    dsimp only
    rw [if_neg hcond]
    rw [ih (List.Chain'.tail h)]

theorem dropWs_head_punct {l : List Char} (h : punctAfterWs l = true) :
    ∃ p t, isPunctDot p = true ∧ dropWsBeforePunctGo l = p :: t := by
  induction l with
  | nil => simp [punctAfterWs] at h
  | cons c cs ih =>
    rw [punctAfterWs_cons] at h
    by_cases hc : isWsChar c
    · simp only [hc, if_true] at h
      obtain ⟨p, t, hp, ht⟩ := ih h
      refine ⟨p, t, hp, ?_⟩
      rw [dropWsBeforePunctGo]
      rw [if_pos (by simp [hc, h])]
      exact ht
    · simp only [hc, Bool.false_eq_true, if_false] at h
      refine ⟨c, dropWsBeforePunctGo cs, h, ?_⟩
      rw [dropWsBeforePunctGo]
      rw [if_neg (by simp [hc])]

theorem dropWs_sublist (l : List Char) : (dropWsBeforePunctGo l).Sublist l := by
  induction l using dropWsBeforePunctGo.induct with
  | case1 => simp [dropWsBeforePunctGo]
  | case2 c cs hcond ih =>
    rw [dropWsBeforePunctGo.eq_def]
    dsimp only
    rw [if_pos hcond]
    exact ih.cons c
  | case3 c cs hcond ih =>
    rw [dropWsBeforePunctGo.eq_def]
    dsimp only
    rw [if_neg hcond]
    exact ih.cons₂ c

theorem dropWs_head (c : Char) (cs : List Char) :
    (∃ t, dropWsBeforePunctGo (c :: cs) = c :: t) ∨
      (∃ p t, isPunctDot p = true ∧ dropWsBeforePunctGo (c :: cs) = p :: t) := by
  rw [dropWsBeforePunctGo]
  by_cases hcond : isWsChar c && punctAfterWs cs
  · rw [if_pos hcond]
    rw [Bool.and_eq_true] at hcond
    exact Or.inr (dropWs_head_punct hcond.2)
  · rw [if_neg hcond]
    exact Or.inl ⟨_, rfl⟩

theorem punctAfterWs_false_head {cs : List Char} (h : punctAfterWs cs = false) {y : Char}
    (hy : (dropWsBeforePunctGo cs).head? = some y) : isPunctDot y = false := by
  induction cs with
  | nil => simp [dropWsBeforePunctGo] at hy
  | cons d ds ih =>
    rw [punctAfterWs_cons] at h
    by_cases hd : isWsChar d
    · simp only [hd, if_true] at h
      rw [dropWsBeforePunctGo, if_neg (by simp [h])] at hy
      simp only [List.head?_cons, Option.some.injEq] at hy
      subst hy
      rcases Bool.eq_false_or_eq_true (isPunctDot d) with ht | hf
      · exact absurd hd (by simp [isWs_not_punct ht])
      · exact hf
    · simp only [hd, Bool.false_eq_true, if_false] at h
      rw [dropWsBeforePunctGo, if_neg (by simp [hd])] at hy
      simp only [List.head?_cons, Option.some.injEq] at hy
      subst hy
      exact h

theorem dropWs_establishes {l : List Char} : NoWsBeforePunct (dropWsBeforePunctGo l) := by
  induction l using dropWsBeforePunctGo.induct with
  | case1 => simp [dropWsBeforePunctGo, NoWsBeforePunct]
  | case2 c cs hcond ih =>
    rw [dropWsBeforePunctGo.eq_def]
    dsimp only
    rw [if_pos hcond]
    exact ih
  | case3 c cs hcond ih =>
    rw [dropWsBeforePunctGo.eq_def]
    dsimp only
    rw [if_neg hcond]
    rw [NoWsBeforePunct, List.chain'_cons']
    refine ⟨?_, ih⟩
    intro y hy hcw
    have hpa : punctAfterWs cs = false := by
      by_contra hb
      rw [Bool.not_eq_false] at hb
      exact hcond (by rw [hcw, hb]; rfl)
    rw [Option.mem_def] at hy
    exact punctAfterWs_false_head hpa hy

theorem dropWs_preserves_spaced {l : List Char} (h : SpacedPunct l) :
    SpacedPunct (dropWsBeforePunctGo l) := by
  induction l using dropWsBeforePunctGo.induct with
  | case1 => simp [dropWsBeforePunctGo, SpacedPunct]
  | case2 c cs hcond ih =>
    rw [dropWsBeforePunctGo.eq_def]
    dsimp only
    rw [if_pos hcond]
    exact ih (List.Chain'.tail h)
  | case3 c cs hcond ih =>
    rw [dropWsBeforePunctGo.eq_def]
    dsimp only
    rw [if_neg hcond]
    rw [SpacedPunct, List.chain'_cons']
    refine ⟨?_, ih (List.Chain'.tail h)⟩
    intro y hy hcp
    rw [Option.mem_def] at hy
    rcases cs with _ | ⟨d, ds⟩
    · simp [dropWsBeforePunctGo] at hy
    · rcases dropWs_head d ds with ⟨t, ht⟩ | ⟨p, t, hp, ht⟩
      · rw [ht] at hy
        simp only [List.head?_cons, Option.some.injEq] at hy
        subst hy
        rw [SpacedPunct, List.chain'_cons] at h
        exact h.1 hcp
      · rw [ht] at hy
        simp only [List.head?_cons, Option.some.injEq] at hy
        subst hy
        exact punct_not_alnumParen hp



/-- The pairwise invariant established by rule 8a: no two adjacent
space/tab characters. -/
def NoDoubleSpaceTab (l : List Char) : Prop :=
  List.Chain' (fun a b => ¬(isSpaceTab a = true ∧ isSpaceTab b = true)) l

theorem collapseSpacesGo_id {l : List Char} (h : NoDoubleSpaceTab l) :
    collapseSpacesGo l = l := by
  induction l using collapseSpacesGo.induct with
  | case1 => simp [collapseSpacesGo]
  | case2 c => simp [collapseSpacesGo]
  | case3 c d ds hcond ih =>
    rw [NoDoubleSpaceTab, List.chain'_cons] at h
    rw [Bool.and_eq_true] at hcond
    exact absurd ⟨hcond.1, hcond.2⟩ h.1
  | case4 c d ds hcond ih =>
    rw [collapseSpacesGo.eq_def]
    dsimp only
    rw [if_neg hcond]
    rw [ih (List.Chain'.tail h)]

theorem collapseSpacesGo_head (d : Char) (ds : List Char) :
    (∃ t, collapseSpacesGo (d :: ds) = d :: t) ∨
      (isSpaceTab d = true ∧ ∃ t, collapseSpacesGo (d :: ds) = ' ' :: t) := by
  rw [collapseSpacesGo.eq_def]
  rcases ds with _ | ⟨e, es⟩
  · exact Or.inl ⟨[], rfl⟩
  · dsimp only
    by_cases hcond : isSpaceTab d && isSpaceTab e
    · rw [if_pos hcond]
      rw [Bool.and_eq_true] at hcond
      exact Or.inr ⟨hcond.1, _, rfl⟩
    · rw [if_neg hcond]
      exact Or.inl ⟨_, rfl⟩

theorem head_dropWhile_false {p : Char → Bool} {l : List Char} {x : Char}
    (h : (l.dropWhile p).head? = some x) : p x = false := by
  induction l with
  | nil => simp [List.dropWhile] at h
  | cons c cs ih =>
    rw [List.dropWhile] at h
    by_cases hc : p c
    · simp only [hc, if_true] at h
      exact ih h
    · simp only [hc] at h
      simp only [Bool.false_eq_true, if_false, List.head?_cons, Option.some.injEq] at h
      subst h
      simpa using hc

theorem collapseSpacesGo_establishes {l : List Char} :
    NoDoubleSpaceTab (collapseSpacesGo l) := by
  induction l using collapseSpacesGo.induct with
  | case1 => simp [collapseSpacesGo, NoDoubleSpaceTab]
  | case2 c => simp [collapseSpacesGo, NoDoubleSpaceTab]
  | case3 c d ds hcond ih =>
    rw [collapseSpacesGo.eq_def]
    dsimp only
    rw [if_pos hcond]
    rw [NoDoubleSpaceTab, List.chain'_cons']
    refine ⟨?_, ih⟩
    intro y hy hcontra
    rw [Option.mem_def] at hy
    rcases hrest : ds.dropWhile isSpaceTab with _ | ⟨x, xs⟩
    · rw [hrest] at hy
      simp [collapseSpacesGo] at hy
    · rw [hrest] at hy
      have hx : isSpaceTab x = false := head_dropWhile_false (by rw [hrest]; rfl)
      rcases collapseSpacesGo_head x xs with ⟨t, ht⟩ | ⟨hxs, t, ht⟩
      · rw [ht] at hy
        simp only [List.head?_cons, Option.some.injEq] at hy
        subst hy
        exact absurd hcontra.2 (by simp [hx])
      · rw [hxs] at hx
        exact absurd hx (by simp)
  | case4 c d ds hcond ih =>
    rw [collapseSpacesGo.eq_def]
    dsimp only
    rw [if_neg hcond]
    rw [NoDoubleSpaceTab, List.chain'_cons']
    refine ⟨?_, ih⟩
    intro y hy hcontra
    rw [Option.mem_def] at hy
    rcases collapseSpacesGo_head d ds with ⟨t, ht⟩ | ⟨hd, t, ht⟩
    · rw [ht] at hy
      simp only [List.head?_cons, Option.some.injEq] at hy
      subst hy
      exact hcond (by simp [hcontra.1, hcontra.2])
    · rw [ht] at hy
      simp only [List.head?_cons, Option.some.injEq] at hy
      subst hy
      exact hcond (by simp [hcontra.1, hd])

theorem collapse_not_mem {l : List Char} {c : Char} (h : c ∉ l) (hc : c ≠ ' ') :
    c ∉ collapseSpacesGo l := by
  induction l using collapseSpacesGo.induct with
  | case1 => simpa [collapseSpacesGo]
  | case2 d => simpa [collapseSpacesGo] using h
  | case3 d e es hcond ih =>
    rw [collapseSpacesGo.eq_def]
    dsimp only
    rw [if_pos hcond]
    simp only [List.mem_cons, not_or] at h ⊢
    refine ⟨hc, fun hm => ?_⟩
    have hsub : c ∉ es.dropWhile isSpaceTab :=
      fun hmm => h.2.2 ((List.dropWhile_sublist _).subset hmm)
    exact ih hsub hm
  | case4 d e es hcond ih =>
    rw [collapseSpacesGo.eq_def]
    dsimp only
    rw [if_neg hcond]
    simp only [List.mem_cons, not_or] at h ⊢
    exact ⟨h.1, fun hm => ih (by simp [not_or, h.2.1, h.2.2]) hm⟩

theorem chainR4_spaceTab_head {x : Char} {xs : List Char}
    (h : NoWsBeforePunct (x :: xs)) (hx : isWsChar x = true) {b : Char}
    (hb : (xs.dropWhile isSpaceTab).head? = some b) : isPunctDot b = false := by
  induction xs generalizing x with
  | nil => simp [List.dropWhile] at hb
  | cons y ys ih =>
    rw [NoWsBeforePunct, List.chain'_cons] at h
    rw [List.dropWhile] at hb
    by_cases hy : isSpaceTab y
    · simp only [hy, if_true] at hb
      exact ih h.2 (spaceTab_isWs hy) hb
    · simp only [hy, Bool.false_eq_true, if_false, List.head?_cons, Option.some.injEq] at hb
      subst hb
      exact h.1 hx

theorem collapse_preserves_spaced {l : List Char} (h : SpacedPunct l) :
    SpacedPunct (collapseSpacesGo l) := by
  induction l using collapseSpacesGo.induct with
  | case1 => simpa [collapseSpacesGo]
  | case2 c => simpa [collapseSpacesGo] using h
  | case3 c d ds hcond ih =>
    rw [collapseSpacesGo.eq_def]
    dsimp only
    rw [if_pos hcond]
    rw [SpacedPunct, List.chain'_cons']
    refine ⟨fun y _ hp => absurd hp (by decide),
      ih (List.Chain'.suffix h.tail.tail (List.dropWhile_suffix _))⟩
  | case4 c d ds hcond ih =>
    rw [collapseSpacesGo.eq_def]
    dsimp only
    rw [if_neg hcond]
    rw [SpacedPunct, List.chain'_cons']
    refine ⟨?_, ih h.tail⟩
    intro y hy hcp
    rw [Option.mem_def] at hy
    rcases collapseSpacesGo_head d ds with ⟨t, ht⟩ | ⟨hd, t, ht⟩
    · rw [ht] at hy
      simp only [List.head?_cons, Option.some.injEq] at hy
      subst hy
      rw [SpacedPunct, List.chain'_cons] at h
      exact h.1 hcp
    · rw [ht] at hy
      simp only [List.head?_cons, Option.some.injEq] at hy
      subst hy
      decide

theorem collapse_preserves_nowsp {l : List Char} (h : NoWsBeforePunct l) :
    NoWsBeforePunct (collapseSpacesGo l) := by
  induction l using collapseSpacesGo.induct with
  | case1 => simpa [collapseSpacesGo]
  | case2 c => simpa [collapseSpacesGo] using h
  | case3 c d ds hcond ih =>
    rw [collapseSpacesGo.eq_def]
    dsimp only
    rw [if_pos hcond]
    rw [NoWsBeforePunct, List.chain'_cons']
    rw [Bool.and_eq_true] at hcond
    refine ⟨?_, ih (List.Chain'.suffix h.tail.tail (List.dropWhile_suffix _))⟩
    intro y hy _
    rw [Option.mem_def] at hy
    rcases hrest : ds.dropWhile isSpaceTab with _ | ⟨x, xs⟩
    · rw [hrest] at hy
      simp [collapseSpacesGo] at hy
    · rw [hrest] at hy
      have hx : isSpaceTab x = false := head_dropWhile_false (by rw [hrest]; rfl)
      rcases collapseSpacesGo_head x xs with ⟨t, ht⟩ | ⟨hxs, t, ht⟩
      · rw [ht] at hy
        simp only [List.head?_cons, Option.some.injEq] at hy
        subst hy
        -- y is the first non-space/tab char after the run; the input chain
        -- forbids punctuation right after whitespace
        have := chainR4_spaceTab_head h.tail (spaceTab_isWs hcond.2) (by rw [hrest]; rfl)
        exact this
      · rw [hxs] at hx
        exact absurd hx (by simp)
  | case4 c d ds hcond ih =>
    rw [collapseSpacesGo.eq_def]
    dsimp only
    rw [if_neg hcond]
    rw [NoWsBeforePunct, List.chain'_cons']
    refine ⟨?_, ih h.tail⟩
    intro y hy hcw
    rw [Option.mem_def] at hy
    rcases collapseSpacesGo_head d ds with ⟨t, ht⟩ | ⟨hd, t, ht⟩
    · rw [ht] at hy
      simp only [List.head?_cons, Option.some.injEq] at hy
      subst hy
      rw [NoWsBeforePunct, List.chain'_cons] at h
      exact h.1 hcw
    · rw [ht] at hy
      simp only [List.head?_cons, Option.some.injEq] at hy
      subst hy
      decide

theorem normalizeCRGo_noCR (l : List Char) : '\r' ∉ normalizeCRGo l := by
  intro hy
  induction l using normalizeCRGo.induct with
  | case1 => simp [normalizeCRGo] at hy
  | case2 rs ih =>
    rw [normalizeCRGo] at hy
    rw [List.mem_cons] at hy
    rcases hy with h | h
    · exact absurd h (by decide)
    · exact ih h
  | case3 rest h1 ih =>
    have he : normalizeCRGo ('\r' :: rest) = '\n' :: normalizeCRGo rest := by
      rw [normalizeCRGo.eq_def]
      rcases rest with _ | ⟨x, xs⟩
      · rfl
      · by_cases hx : x = '\n'
        · subst hx; exact absurd rfl (h1 xs)
        · simp [hx]
    rw [he] at hy
    rw [List.mem_cons] at hy
    rcases hy with h | h
    · exact absurd h (by decide)
    · exact ih h
  | case4 c rest h1 h2 ih =>
    have he : normalizeCRGo (c :: rest) = c :: normalizeCRGo rest := by
      rw [normalizeCRGo.eq_def]
      rcases rest with _ | ⟨x, xs⟩
      · simp [h2]
      · by_cases hc : c = '\r'
        · exact absurd hc (by simpa using h2)
        · simp [hc]
    rw [he] at hy
    rw [List.mem_cons] at hy
    rcases hy with h | h
    · exact h2 h.symm
    · exact ih h

theorem normalizeCRGo_not_mem {l : List Char} {c : Char} (h : c ∉ l) (hc : c ≠ '\n') :
    c ∉ normalizeCRGo l := by
  intro hy
  induction l using normalizeCRGo.induct with
  | case1 => simp [normalizeCRGo] at hy
  | case2 rs ih =>
    rw [normalizeCRGo] at hy
    rw [List.mem_cons] at hy
    simp only [List.mem_cons, not_or] at h
    rcases hy with hh | hh
    · exact hc hh
    · exact ih h.2.2 hh
  | case3 rest h1 ih =>
    have he : normalizeCRGo ('\r' :: rest) = '\n' :: normalizeCRGo rest := by
      rw [normalizeCRGo.eq_def]
      rcases rest with _ | ⟨x, xs⟩
      · rfl
      · by_cases hx : x = '\n'
        · subst hx; exact absurd rfl (h1 xs)
        · simp [hx]
    rw [he] at hy
    rw [List.mem_cons] at hy
    simp only [List.mem_cons, not_or] at h
    rcases hy with hh | hh
    · exact hc hh
    · exact ih h.2 hh
  | case4 c2 rest h1 h2 ih =>
    have he : normalizeCRGo (c2 :: rest) = c2 :: normalizeCRGo rest := by
      rw [normalizeCRGo.eq_def]
      rcases rest with _ | ⟨x, xs⟩
      · simp [h2]
      · by_cases hcx : c2 = '\r'
        · exact absurd hcx (by simpa using h2)
        · simp [hcx]
    rw [he] at hy
    rw [List.mem_cons] at hy
    simp only [List.mem_cons, not_or] at h
    rcases hy with hh | hh
    · exact h.1 hh
    · exact ih h.2 hh

/-- C4 (amended): the normalizer is idempotent on every string containing no
period.  The first pass establishes the pairwise invariants (no CR, spaced
punctuation, no whitespace before punctuation, no double spaces/tabs) under
which every rule is the identity, and the period rules are the identity on
dot-free text outright. -/
theorem normalizeOutputText_idem_of_dotFree (s : String) (h : '.' ∉ s.toList) :
    normalizeOutputText (normalizeOutputText s) = normalizeOutputText s := by
  by_cases hs : s.isEmpty
  · have h0 : normalizeOutputText s = s := by rw [normalizeOutputText, if_pos hs]
    rw [h0]
    exact h0
  · have hA : '.' ∉ normalizeCRGo s.toList := normalizeCRGo_not_mem h (by decide)
    have hAcr : '\r' ∉ normalizeCRGo s.toList := normalizeCRGo_noCR _
    have hB : '.' ∉ spaceAfterPunctGo (normalizeCRGo s.toList) :=
      spaceAfterPunctGo_not_mem hA (by decide)
    have hBcr : '\r' ∉ spaceAfterPunctGo (normalizeCRGo s.toList) :=
      spaceAfterPunctGo_not_mem hAcr (by decide)
    have hBsp : SpacedPunct (spaceAfterPunctGo (normalizeCRGo s.toList)) :=
      spaceAfterPunctGo_spaced _
    have hC : '.' ∉ dropWsBeforePunctGo (spaceAfterPunctGo (normalizeCRGo s.toList)) :=
      fun hm => hB ((dropWs_sublist _).subset hm)
    have hCcr : '\r' ∉ dropWsBeforePunctGo (spaceAfterPunctGo (normalizeCRGo s.toList)) :=
      fun hm => hBcr ((dropWs_sublist _).subset hm)
    have hCsp : SpacedPunct (dropWsBeforePunctGo (spaceAfterPunctGo (normalizeCRGo s.toList))) :=
      dropWs_preserves_spaced hBsp
    have hCnw : NoWsBeforePunct (dropWsBeforePunctGo (spaceAfterPunctGo (normalizeCRGo s.toList))) :=
      dropWs_establishes
    have hD : '.' ∉ collapseSpacesGo (dropWsBeforePunctGo (spaceAfterPunctGo (normalizeCRGo s.toList))) :=
      collapse_not_mem hC (by decide)
    have hDcr : '\r' ∉ collapseSpacesGo (dropWsBeforePunctGo (spaceAfterPunctGo (normalizeCRGo s.toList))) :=
      collapse_not_mem hCcr (by decide)
    have hDsp : SpacedPunct (collapseSpacesGo (dropWsBeforePunctGo (spaceAfterPunctGo (normalizeCRGo s.toList)))) :=
      collapse_preserves_spaced hCsp
    have hDnw : NoWsBeforePunct (collapseSpacesGo (dropWsBeforePunctGo (spaceAfterPunctGo (normalizeCRGo s.toList)))) :=
      collapse_preserves_nowsp hCnw
    have hDnd : NoDoubleSpaceTab (collapseSpacesGo (dropWsBeforePunctGo (spaceAfterPunctGo (normalizeCRGo s.toList)))) :=
      collapseSpacesGo_establishes
    have hpass : normalizeOutputText s =
        String.mk (collapseSpacesGo (dropWsBeforePunctGo (spaceAfterPunctGo (normalizeCRGo s.toList)))) := by
      rw [normalizeOutputText, if_neg hs]
      rw [spaceAfterDotGo_id hA, fixEgGo_id false _ hC, fixIeGo_id false _ hC,
        tightenInitialsGo_id false _ hC, dropDotSpaceDotGo_id hD]
    rw [hpass]
    rcases hld : collapseSpacesGo (dropWsBeforePunctGo (spaceAfterPunctGo (normalizeCRGo s.toList))) with _ | ⟨x, xs⟩
    · decide
    · rw [hld] at hD hDcr hDsp hDnw hDnd
      rw [normalizeOutputText, if_neg (by simp [String.isEmpty_iff, String.ext_iff])]
      show String.mk (dropDotSpaceDotGo (collapseSpacesGo (tightenInitialsGo false
        (fixIeGo false (fixEgGo false (dropWsBeforePunctGo (spaceAfterPunctGo
          (spaceAfterDotGo (normalizeCRGo (x :: xs)))))))))) = String.mk (x :: xs)
      rw [normalizeCRGo_id hDcr, spaceAfterDotGo_id hD, spaceAfterPunctGo_id hDsp,
        dropWsBeforePunctGo_id hDnw, fixEgGo_id false _ hD, fixIeGo_id false _ hD,
        tightenInitialsGo_id false _ hD, collapseSpacesGo_id hDnd, dropDotSpaceDotGo_id hD]

/-- Witness for C4's amended theorem at a concrete dot-free string. -/
theorem normalizeOutputText_idem_witness :
    normalizeOutputText (normalizeOutputText "ab, c") = normalizeOutputText "ab, c" :=
  normalizeOutputText_idem_of_dotFree "ab, c" (by decide)

/-- Newline-joining of a list of strings, as the spec words it: the
concatenation joined by single newlines. -/
def newlineJoin : List String → String
  | [] => ""
  | [t] => t
  | t :: ts => t ++ "\n" ++ newlineJoin ts

theorem newlineJoin_cons_cons (t u : String) (us : List String) :
    newlineJoin (t :: u :: us) = t ++ "\n" ++ newlineJoin (u :: us) := rfl

theorem append_nl_ne_empty (a t : String) : (a ++ "\n" ++ t).isEmpty = false := by
  rw [← Bool.not_eq_true, String.isEmpty_iff]
  intro heq
  have hd : (a ++ "\n" ++ t).data = [] := by rw [heq]
  simp at hd

theorem newlineJoin_ne_empty {l : List String} (hl : l ≠ [])
    (h : ∀ t ∈ l, t.isEmpty = false) : (newlineJoin l).isEmpty = false := by
  rcases l with _ | ⟨t, ts⟩
  · exact absurd rfl hl
  · rcases ts with _ | ⟨u, us⟩
    · exact h t (by simp)
    · rw [newlineJoin_cons_cons]
      exact append_nl_ne_empty _ _

theorem accAppend_empty_right {acc t : String} (ht : t.isEmpty = true) :
    accAppend acc t = acc := by simp [accAppend, ht]

theorem accAppend_ne_right {acc t : String} (ht : t.isEmpty = false)
    (hacc : acc.isEmpty = false) : accAppend acc t = acc ++ "\n" ++ t := by
  simp [accAppend, ht, hacc]

theorem accAppend_empty_left {acc t : String} (hacc : acc.isEmpty = true) :
    accAppend acc t = t := by
  by_cases ht : t.isEmpty
  · rw [accAppend_empty_right ht]
    rw [String.isEmpty_iff] at ht hacc
    rw [hacc, ht]
  · rw [accAppend]
    simp only [Bool.not_eq_true] at ht
    simp [ht, hacc]

theorem accAppend_join_step (acc t : String) (ts : List String) :
    accAppend (accAppend acc t) (newlineJoin (ts.filter fun u => !u.isEmpty)) =
      accAppend acc (newlineJoin ((t :: ts).filter fun u => !u.isEmpty)) := by
  by_cases ht : t.isEmpty
  · rw [accAppend_empty_right ht]
    rw [show (t :: ts).filter (fun u => !u.isEmpty) = ts.filter (fun u => !u.isEmpty) from by
      simp [List.filter_cons, ht]]
  · rw [Bool.not_eq_true] at ht
    have hfil : (t :: ts).filter (fun u => !u.isEmpty) = t :: ts.filter (fun u => !u.isEmpty) := by
      simp [List.filter_cons, ht]
    rw [hfil]
    rcases hts : ts.filter (fun u => !u.isEmpty) with _ | ⟨u, us⟩
    · rw [hts]
      rw [show newlineJoin ([] : List String) = "" from rfl,
        show newlineJoin [t] = t from rfl,
        accAppend_empty_right (by decide)]
    · have hne : (newlineJoin (u :: us)).isEmpty = false := by
        refine newlineJoin_ne_empty (by simp) ?_
        intro v hv
        have hv2 : v ∈ ts.filter (fun u => !u.isEmpty) := by rw [hts]; exact hv
        simpa using List.of_mem_filter hv2
      rw [hts, newlineJoin_cons_cons]
      by_cases hacc : acc.isEmpty
      · rw [accAppend_empty_left hacc, accAppend_empty_left hacc,
          accAppend_ne_right hne ht]
      · rw [Bool.not_eq_true] at hacc
        rw [accAppend_ne_right ht hacc,
          accAppend_ne_right hne (append_nl_ne_empty acc t),
          accAppend_ne_right (append_nl_ne_empty t (newlineJoin (u :: us))) hacc]
        simp [String.append_assoc]

theorem foldl_accAppend_eq (l : List String) (acc : String) :
    List.foldl accAppend acc l = accAppend acc (newlineJoin (l.filter fun u => !u.isEmpty)) := by
  induction l generalizing acc with
  | nil =>
    rw [List.foldl_nil, List.filter_nil, show newlineJoin [] = "" from rfl,
      accAppend_empty_right (by decide)]
  | cons t ts ih =>
    rw [List.foldl_cons, ih (accAppend acc t), accAppend_join_step]

theorem autoContinueGo_calls_bounds (oracle : Nat → RoundOut) (cap : Int) :
    ∀ (fuel i : Nat) (acc : String) (tokens : Int) (last : Option String) (sent : List Int),
      i ≤ (autoContinueGo oracle cap i fuel acc tokens last sent).calls ∧
        (autoContinueGo oracle cap i fuel acc tokens last sent).calls ≤ i + fuel ∧
        (0 < fuel → i < (autoContinueGo oracle cap i fuel acc tokens last sent).calls) := by
  intro fuel
  induction fuel with
  | zero => intro i acc tokens last sent; rw [autoContinueGo]; simp
  | succ n ih =>
    intro i acc tokens last sent
    rw [autoContinueGo]
    by_cases hr : (oracle i).incompleteReason = some "max_output_tokens"
    · rw [if_neg (by simpa using hr)]
      obtain ⟨h1, h2, h3⟩ := ih (i + 1) (accAppend acc (oracle i).text)
        (clampTokens cap (growBudget tokens)) (oracle i).incompleteReason
        (sent ++ [clampTokens cap tokens])
      exact ⟨by omega, by omega, fun _ => by omega⟩
    · rw [if_pos hr]
      dsimp only
      exact ⟨by omega, by omega, fun _ => by omega⟩

theorem autoContinueGo_sentinel_before (oracle : Nat → RoundOut) (cap : Int) :
    ∀ (fuel i : Nat) (acc : String) (tokens : Int) (last : Option String) (sent : List Int),
      ∀ j, i ≤ j → j + 1 < (autoContinueGo oracle cap i fuel acc tokens last sent).calls →
        (oracle j).incompleteReason = some "max_output_tokens" := by
  intro fuel
  induction fuel with
  | zero =>
    intro i acc tokens last sent j hij hj
    rw [autoContinueGo] at hj
    dsimp only at hj
    omega
  | succ n ih =>
    intro i acc tokens last sent j hij hj
    rw [autoContinueGo] at hj
    by_cases hr : (oracle i).incompleteReason = some "max_output_tokens"
    · rw [if_neg (by simpa using hr)] at hj
      rcases Nat.eq_or_lt_of_le hij with rfl | hlt
      · exact hr
      · exact ih (i + 1) _ _ _ _ j hlt hj
    · rw [if_pos hr] at hj
      dsimp only at hj
      omega

theorem autoContinueGo_all_sentinel (oracle : Nat → RoundOut) (cap : Int) :
    ∀ (fuel i : Nat) (acc : String) (tokens : Int) (last : Option String) (sent : List Int),
      (∀ j, i ≤ j → j < i + fuel → (oracle j).incompleteReason = some "max_output_tokens") →
      (autoContinueGo oracle cap i fuel acc tokens last sent).calls = i + fuel := by
  intro fuel
  induction fuel with
  | zero => intro i acc tokens last sent _; rw [autoContinueGo]; dsimp only; omega
  | succ n ih =>
    intro i acc tokens last sent hall
    rw [autoContinueGo]
    have hi : (oracle i).incompleteReason = some "max_output_tokens" :=
      hall i (Nat.le_refl i) (by omega)
    rw [if_neg (by simpa using hi)]
    rw [ih (i + 1) _ _ _ _ (fun j h1 h2 => hall j (by omega) (by omega))]
    omega

theorem autoContinueGo_stop_reason (oracle : Nat → RoundOut) (cap : Int) :
    ∀ (fuel i : Nat) (acc : String) (tokens : Int) (last : Option String) (sent : List Int),
      (autoContinueGo oracle cap i fuel acc tokens last sent).calls < i + fuel →
      (oracle ((autoContinueGo oracle cap i fuel acc tokens last sent).calls - 1)).incompleteReason
        ≠ some "max_output_tokens" := by
  intro fuel
  induction fuel with
  | zero =>
    intro i acc tokens last sent hlt
    rw [autoContinueGo] at hlt
    dsimp only at hlt
    omega
  | succ n ih =>
    intro i acc tokens last sent hlt
    rw [autoContinueGo] at hlt ⊢
    by_cases hr : (oracle i).incompleteReason = some "max_output_tokens"
    · rw [if_neg (by simpa using hr)] at hlt ⊢
      exact ih (i + 1) _ _ _ _ (by omega)
    · rw [if_pos hr] at hlt ⊢
      dsimp only at hlt ⊢
      simpa using hr
theorem autoContinueGo_text (oracle : Nat → RoundOut) (cap : Int) :
    ∀ (fuel i : Nat) (acc : String) (tokens : Int) (last : Option String) (sent : List Int),
      (autoContinueGo oracle cap i fuel acc tokens last sent).text =
        List.foldl accAppend acc
          ((List.range' i ((autoContinueGo oracle cap i fuel acc tokens last sent).calls - i)).map
            fun j => (oracle j).text) := by
  intro fuel
  induction fuel with
  | zero =>
    intro i acc tokens last sent
    rw [autoContinueGo]
    dsimp only
    simp
  | succ n ih =>
    intro i acc tokens last sent
    rw [autoContinueGo]
    by_cases hr : (oracle i).incompleteReason = some "max_output_tokens"
    · rw [if_neg (by simpa using hr)]
      rw [ih (i + 1)]
      have hge : i + 1 ≤ (autoContinueGo oracle cap (i + 1) n (accAppend acc (oracle i).text)
          (clampTokens cap (growBudget tokens)) (oracle i).incompleteReason
          (sent ++ [clampTokens cap tokens])).calls :=
        (autoContinueGo_calls_bounds oracle cap n (i + 1) _ _ _ _).1
      rw [show (autoContinueGo oracle cap (i + 1) n (accAppend acc (oracle i).text)
          (clampTokens cap (growBudget tokens)) (oracle i).incompleteReason
          (sent ++ [clampTokens cap tokens])).calls - i =
          ((autoContinueGo oracle cap (i + 1) n (accAppend acc (oracle i).text)
          (clampTokens cap (growBudget tokens)) (oracle i).incompleteReason
          (sent ++ [clampTokens cap tokens])).calls - (i + 1)) + 1 from by omega]
      rw [List.range'_succ, List.map_cons, List.foldl_cons]
    · rw [if_pos hr]
      dsimp only
      rw [show i + 1 - i = 1 from by omega]
      rw [show List.range' i 1 = [i] from rfl]
      rw [List.map_cons, List.map_nil, List.foldl_cons, List.foldl_nil]

theorem autoContinueGo_budgets (oracle : Nat → RoundOut) (cap : Int) (hcap : 64 ≤ cap) :
    ∀ (fuel i : Nat) (acc : String) (tokens : Int) (last : Option String) (sent : List Int),
      (∀ b ∈ sent, b ≤ cap) →
      ∀ b ∈ (autoContinueGo oracle cap i fuel acc tokens last sent).sentBudgets, b ≤ cap := by
  intro fuel
  induction fuel with
  | zero =>
    intro i acc tokens last sent hsent b hb
    rw [autoContinueGo] at hb
    exact hsent b hb
  | succ n ih =>
    intro i acc tokens last sent hsent b hb
    have hclamp : ∀ t : Int, clampTokens cap t ≤ cap := by
      intro t
      rw [clampTokens]
      omega
    rw [autoContinueGo] at hb
    by_cases hr : (oracle i).incompleteReason = some "max_output_tokens"
    · rw [if_neg (by simpa using hr)] at hb
      refine ih (i + 1) _ _ _ _ ?_ b hb
      intro x hx
      rw [List.mem_append] at hx
      rcases hx with hx | hx
      · exact hsent x hx
      · simp at hx
        rw [hx]
        exact hclamp tokens
    · rw [if_pos hr] at hb
      dsimp only at hb
      rw [List.mem_append] at hb
      rcases hb with hb | hb
      · exact hsent b hb
      · simp at hb
        rw [hb]
        exact hclamp tokens
theorem range_zero_eq (n : Nat) : List.range' 0 n = List.range n := (List.range_eq_range' n).symm

/-- C5: with `maxRounds ≥ 1` and any starting budget, the continuation loop
makes at most `maxRounds` calls; every call before the last reported the
`max_output_tokens` sentinel (i.e. the loop stops right after the first
non-sentinel round); if every round reports the sentinel it makes exactly
`maxRounds` calls; the returned text is the non-empty per-round texts joined
by single newlines; and every per-call budget sent is ≤ CAP. -/
theorem completeWithAutoContinue_spec (oracle : Nat → RoundOut) (cap tokens rounds : Int)
    (hrds : 1 ≤ rounds) (hcap : 128 ≤ cap) :
    (completeWithAutoContinue oracle cap tokens rounds).calls ≤ rounds.toNat ∧
    (∀ j : Nat, j + 1 < (completeWithAutoContinue oracle cap tokens rounds).calls →
      (oracle j).incompleteReason = some "max_output_tokens") ∧
    ((∀ j : Nat, j < rounds.toNat → (oracle j).incompleteReason = some "max_output_tokens") →
      (completeWithAutoContinue oracle cap tokens rounds).calls = rounds.toNat) ∧
    ((completeWithAutoContinue oracle cap tokens rounds).calls < rounds.toNat →
      (oracle ((completeWithAutoContinue oracle cap tokens rounds).calls - 1)).incompleteReason
        ≠ some "max_output_tokens") ∧
    (completeWithAutoContinue oracle cap tokens rounds).text =
      newlineJoin ((((List.range (completeWithAutoContinue oracle cap tokens rounds).calls).map
        fun j => (oracle j).text).filter fun t => !t.isEmpty)) ∧
    (∀ b ∈ (completeWithAutoContinue oracle cap tokens rounds).sentBudgets, b ≤ cap) := by
  have hmax : (max 1 rounds).toNat = rounds.toNat := by rw [max_eq_right hrds]
  rw [completeWithAutoContinue, hmax]
  refine ⟨?_, ?_, ?_, ?_, ?_, ?_⟩
  · have := (autoContinueGo_calls_bounds oracle cap rounds.toNat 0 "" tokens none []).2.1
    omega
  · intro j hj
    exact autoContinueGo_sentinel_before oracle cap rounds.toNat 0 "" tokens none [] j
      (Nat.zero_le j) hj
  · intro hall
    have := autoContinueGo_all_sentinel oracle cap rounds.toNat 0 "" tokens none []
      (fun j _ h2 => hall j (by omega))
    omega
  · intro hlt
    exact autoContinueGo_stop_reason oracle cap rounds.toNat 0 "" tokens none [] (by omega)
  · rw [autoContinueGo_text oracle cap rounds.toNat 0 "" tokens none []]
    rw [Nat.sub_zero, range_zero_eq]
    rw [foldl_accAppend_eq]
    exact accAppend_empty_left (by decide)
  · exact autoContinueGo_budgets oracle cap (by omega) rounds.toNat 0 "" tokens none []
      (by intro b hb; simp at hb)

/-- C6: each round's accumulated text extends the previous one (the update
appends, never truncates), and for a budget `t` in `[0, CAP]` the next
round's budget `clampTokens (round (t * 1.25))` is at least `t` (the budget
is monotonically non-decreasing across rounds). -/
theorem continuation_invariants :
    (∀ acc t : String, ∃ u, accAppend acc t = acc ++ u) ∧
    (∀ cap t : Int, 0 ≤ t → t ≤ cap → t ≤ clampTokens cap (growBudget t)) := by
  constructor
  · intro acc t
    by_cases ht : t.isEmpty
    · exact ⟨"", by rw [accAppend_empty_right ht, String.append_empty]⟩
    · rw [Bool.not_eq_true] at ht
      by_cases hacc : acc.isEmpty
      · refine ⟨t, ?_⟩
        rw [accAppend_empty_left hacc]
        rw [String.isEmpty_iff] at hacc
        rw [hacc]
        rfl
      · rw [Bool.not_eq_true] at hacc
        exact ⟨"\n" ++ t, by rw [accAppend_ne_right ht hacc, String.append_assoc]⟩
  · intro cap t h0 hcap
    have h1 : t ≤ growBudget t := by
      rw [growBudget, Int.fdiv_eq_ediv _ (by norm_num)]
      rw [Int.le_ediv_iff_mul_le (by norm_num : (0:ℤ) < 4)]
      omega
    rw [clampTokens]
    omega

def oracleAllTrunc : Nat → RoundOut := fun j =>
  RoundOut.mk ("part" ++ toString j) (some "max_output_tokens")

/-- Witness for C5 at a concrete all-truncated oracle. -/
theorem completeWithAutoContinue_spec_witness :
    (completeWithAutoContinue oracleAllTrunc 3500 1300 6).calls ≤ (6 : Int).toNat ∧
    (∀ j : Nat, j + 1 < (completeWithAutoContinue oracleAllTrunc 3500 1300 6).calls →
      (oracleAllTrunc j).incompleteReason = some "max_output_tokens") ∧
    ((∀ j : Nat, j < (6 : Int).toNat →
        (oracleAllTrunc j).incompleteReason = some "max_output_tokens") →
      (completeWithAutoContinue oracleAllTrunc 3500 1300 6).calls = (6 : Int).toNat) ∧
    ((completeWithAutoContinue oracleAllTrunc 3500 1300 6).calls < (6 : Int).toNat →
      (oracleAllTrunc ((completeWithAutoContinue oracleAllTrunc 3500 1300 6).calls - 1)).incompleteReason
        ≠ some "max_output_tokens") ∧
    (completeWithAutoContinue oracleAllTrunc 3500 1300 6).text =
      newlineJoin ((((List.range (completeWithAutoContinue oracleAllTrunc 3500 1300 6).calls).map
        fun j => (oracleAllTrunc j).text).filter fun t => !t.isEmpty)) ∧
    (∀ b ∈ (completeWithAutoContinue oracleAllTrunc 3500 1300 6).sentBudgets, b ≤ 3500) :=
  completeWithAutoContinue_spec oracleAllTrunc 3500 1300 6 (by norm_num) (by norm_num)

/-- Witness for C6's budget-growth clause at concrete values. -/
theorem continuation_invariants_witness :
    (0 : Int) ≤ 1300 ∧ (1300 : Int) ≤ 3500 ∧
      (1300 : Int) ≤ clampTokens 3500 (growBudget 1300) :=
  ⟨by norm_num, by norm_num,
    continuation_invariants.2 3500 1300 (by norm_num) (by norm_num)⟩
theorem selectChunksGo_length (l : List RetrievedChunk) :
    ∀ (room maxChars used : Nat), (selectChunksGo l room maxChars used).length ≤ room := by
  induction l with
  | nil => intro room maxChars used; simp [selectChunksGo]
  | cons r rest ih =>
    intro room maxChars used
    rw [selectChunksGo]
    by_cases hroom : room = 0
    · simp [hroom]
    · rw [if_neg hroom]
      by_cases hrem : maxChars - used < 200
      · simp [hrem]
      · rw [if_neg hrem]
        dsimp only
        rw [List.length_cons]
        have := ih (room - 1) maxChars (used + (String.mk (r.content.toList.take (maxChars - used))).length)
        omega

theorem selectChunksGo_sum (l : List RetrievedChunk) :
    ∀ (room maxChars used : Nat),
      ((selectChunksGo l room maxChars used).map fun c => c.content.length).sum ≤
        maxChars - used := by
  induction l with
  | nil => intro room maxChars used; simp [selectChunksGo]
  | cons r rest ih =>
    intro room maxChars used
    rw [selectChunksGo]
    by_cases hroom : room = 0
    · simp [hroom]
    · rw [if_neg hroom]
      by_cases hrem : maxChars - used < 200
      · simp [hrem]
      · rw [if_neg hrem]
        dsimp only
        rw [List.map_cons, List.sum_cons]
        dsimp only
        have hlen : (String.mk (r.content.toList.take (maxChars - used))).length ≤ maxChars - used := by
          have : (String.mk (r.content.toList.take (maxChars - used))).length =
              (r.content.toList.take (maxChars - used)).length := rfl
          rw [this, List.length_take]
          omega
        have := ih (room - 1) maxChars (used + (String.mk (r.content.toList.take (maxChars - used))).length)
        omega

theorem selectChunksGo_mem (l : List RetrievedChunk) :
    ∀ (room maxChars used : Nat), ∀ c ∈ selectChunksGo l room maxChars used,
      ∃ r ∈ l, c.title = r.title ∧ c.file = r.file ∧ c.score = r.score ∧
        ∃ n, c.content = String.mk (r.content.toList.take n) := by
  induction l with
  | nil => intro room maxChars used c hc; simp [selectChunksGo] at hc
  | cons r rest ih =>
    intro room maxChars used c hc
    rw [selectChunksGo] at hc
    by_cases hroom : room = 0
    · simp [hroom] at hc
    · rw [if_neg hroom] at hc
      by_cases hrem : maxChars - used < 200
      · simp [hrem] at hc
      · rw [if_neg hrem] at hc
        dsimp only at hc
        rw [List.mem_cons] at hc
        rcases hc with rfl | hc
        · exact ⟨r, by simp, rfl, rfl, rfl, maxChars - used, rfl⟩
        · obtain ⟨r2, hr2, h1, h2, h3, n, h4⟩ := ih _ _ _ c hc
          exact ⟨r2, by simp [hr2], h1, h2, h3, n, h4⟩

theorem selectChunksGo_content (l : List RetrievedChunk) :
    ∀ (room maxChars used : Nat) (i : Nat)
      (hi : i < (selectChunksGo l room maxChars used).length),
      ∃ r ∈ l, ((selectChunksGo l room maxChars used).get ⟨i, hi⟩).title = r.title ∧
        ((selectChunksGo l room maxChars used).get ⟨i, hi⟩).file = r.file ∧
        ((selectChunksGo l room maxChars used).get ⟨i, hi⟩).content =
          String.mk (r.content.toList.take (maxChars - (used +
            (((selectChunksGo l room maxChars used).take i).map
              fun c => c.content.length).sum))) := by
  induction l with
  | nil =>
    intro room maxChars used i hi
    exfalso
    rw [selectChunksGo] at hi
    simp at hi
  | cons r rest ih =>
    intro room maxChars used i hi
    by_cases hroom : room = 0
    · exfalso
      rw [selectChunksGo, if_pos hroom] at hi
      simp at hi
    · by_cases hrem : maxChars - used < 200
      · exfalso
        rw [selectChunksGo, if_neg hroom] at hi
        dsimp only at hi
        rw [if_pos hrem] at hi
        simp at hi
      · have hout : selectChunksGo (r :: rest) room maxChars used =
            { r with content := String.mk (r.content.toList.take (maxChars - used)) } ::
              selectChunksGo rest (room - 1) maxChars
                (used + (String.mk (r.content.toList.take (maxChars - used))).length) := by
          rw [selectChunksGo, if_neg hroom]
          dsimp only
          rw [if_neg hrem]
        match i with
        | 0 =>
          have hget0 : (selectChunksGo (r :: rest) room maxChars used).get ⟨0, hi⟩ =
              { r with content := String.mk (r.content.toList.take (maxChars - used)) } := by
            rw [List.get_of_eq hout]
            rfl
          refine ⟨r, by simp, ?_, ?_, ?_⟩ <;> rw [hget0]
          simp only [List.take_zero, List.map_nil, List.sum_nil, Nat.add_zero]
        | j + 1 =>
          have hj : j < (selectChunksGo rest (room - 1) maxChars
              (used + (String.mk (r.content.toList.take (maxChars - used))).length)).length := by
            rw [hout] at hi
            simpa using hi
          obtain ⟨r2, hr2, h1, h2, h3⟩ := ih (room - 1) maxChars
            (used + (String.mk (r.content.toList.take (maxChars - used))).length) j hj
          have hgetS : (selectChunksGo (r :: rest) room maxChars used).get ⟨j + 1, hi⟩ =
              (selectChunksGo rest (room - 1) maxChars
                (used + (String.mk (r.content.toList.take (maxChars - used))).length)).get
                  ⟨j, hj⟩ := by
            rw [List.get_of_eq hout]
            rfl
          refine ⟨r2, by simp [hr2], ?_, ?_, ?_⟩ <;> rw [hgetS]
          · exact h1
          · exact h2
          · rw [h3]
            have hsum : (((selectChunksGo (r :: rest) room maxChars used).take (j + 1)).map
                (fun c => c.content.length)).sum =
                (String.mk (r.content.toList.take (maxChars - used))).length +
                (((selectChunksGo rest (room - 1) maxChars
                  (used + (String.mk (r.content.toList.take (maxChars - used))).length)).take
                    j).map (fun c => c.content.length)).sum := by
              simp only [hout, List.take_succ_cons, List.map_cons, List.sum_cons]
            rw [hsum]
            have harith : maxChars - (used +
                ((String.mk (r.content.toList.take (maxChars - used))).length +
                  (((selectChunksGo rest (room - 1) maxChars
                    (used + (String.mk (r.content.toList.take (maxChars - used))).length)).take
                      j).map (fun c => c.content.length)).sum)) =
                maxChars - (used + (String.mk (r.content.toList.take (maxChars - used))).length +
                  (((selectChunksGo rest (room - 1) maxChars
                    (used + (String.mk (r.content.toList.take (maxChars - used))).length)).take
                      j).map (fun c => c.content.length)).sum) := by
              omega
            rw [harith]

theorem selectChunksGo_chain (l : List RetrievedChunk) :
    ∀ (room maxChars used : Nat),
      List.Pairwise (fun a b => b.score ≤ a.score) l →
      List.Chain' (fun a b => b.score ≤ a.score) (selectChunksGo l room maxChars used) := by
  induction l with
  | nil => intro room maxChars used _; simp [selectChunksGo]
  | cons r rest ih =>
    intro room maxChars used hpw
    rw [selectChunksGo]
    by_cases hroom : room = 0
    · simp [hroom]
    · rw [if_neg hroom]
      by_cases hrem : maxChars - used < 200
      · simp [hrem]
      · rw [if_neg hrem]
        dsimp only
        rw [List.pairwise_cons] at hpw
        rw [List.chain'_cons']
        refine ⟨?_, ih _ _ _ hpw.2⟩
        intro y hy
        rw [Option.mem_def] at hy
        have hym : y ∈ selectChunksGo rest (room - 1) maxChars
            (used + (String.mk (r.content.toList.take (maxChars - used))).length) :=
          List.mem_of_mem_head? hy
        obtain ⟨r2, hr2, _, _, hsc, _, _⟩ := selectChunksGo_mem rest _ _ _ y hym
        rw [hsc]
        exact hpw.1 r2 hr2

theorem selectChunksGo_stop (l : List RetrievedChunk) :
    ∀ (room maxChars used : Nat),
      (selectChunksGo l room maxChars used).length < room →
      (selectChunksGo l room maxChars used).length < l.length →
      maxChars - used - ((selectChunksGo l room maxChars used).map fun c => c.content.length).sum
        < 200 := by
  induction l with
  | nil => intro room maxChars used h1 h2; simp at h2
  | cons r rest ih =>
    intro room maxChars used h1 h2
    rw [selectChunksGo] at h1 h2 ⊢
    by_cases hroom : room = 0
    · rw [if_pos hroom] at h1
      simp [hroom] at h1
    · rw [if_neg hroom] at h1 h2 ⊢
      by_cases hrem : maxChars - used < 200
      · simp only [hrem, if_true]
        simpa using hrem
      · rw [if_neg hrem] at h1 h2 ⊢
        dsimp only at h1 h2 ⊢
        rw [List.length_cons] at h1 h2
        rw [List.map_cons, List.sum_cons]
        dsimp only
        have := ih (room - 1) maxChars
          (used + (String.mk (r.content.toList.take (maxChars - used))).length)
          (by omega) (by simpa using h2)
        have hlen : (String.mk (r.content.toList.take (maxChars - used))).length =
            min (maxChars - used) r.content.toList.length := by
          rw [show (String.mk (r.content.toList.take (maxChars - used))).length =
            (r.content.toList.take (maxChars - used)).length from rfl, List.length_take]
        omega
theorem scoredRecords_pairwise (sim : List ℚ → List ℚ → ℚ) (qVec : List ℚ)
    (records : List RagRecord) :
    List.Pairwise (fun a b => b.score ≤ a.score) (scoredRecords sim qVec records) := by
  rw [scoredRecords]
  have hs := @List.sorted_mergeSort _
    (fun a b : RetrievedChunk => decide (b.score ≤ a.score))
    (fun a b c hab hbc => by
      rw [decide_eq_true_iff] at hab hbc ⊢
      exact le_trans hbc hab)
    (fun a b => by
      rcases le_total b.score a.score with h | h
      · simp [h]
      · simp [h])
    (records.map fun r => RetrievedChunk.mk r.title r.file r.content (sim qVec r.embedding))
  exact hs.imp (fun h => by rwa [decide_eq_true_iff] at h)

theorem scoredRecords_mem (sim : List ℚ → List ℚ → ℚ) (qVec : List ℚ)
    (records : List RagRecord) {c : RetrievedChunk}
    (hc : c ∈ scoredRecords sim qVec records) :
    ∃ r ∈ records, c.title = r.title ∧ c.file = r.file ∧ c.content = r.content ∧
      c.score = sim qVec r.embedding := by
  rw [scoredRecords] at hc
  have hperm := List.mergeSort_perm
    (records.map fun r => RetrievedChunk.mk r.title r.file r.content (sim qVec r.embedding))
    (fun a b => decide (b.score ≤ a.score))
  rw [hperm.mem_iff] at hc
  rw [List.mem_map] at hc
  obtain ⟨r, hr, rfl⟩ := hc
  exact ⟨r, hr, rfl, rfl, rfl, rfl⟩

theorem scoredRecords_length (sim : List ℚ → List ℚ → ℚ) (qVec : List ℚ)
    (records : List RagRecord) :
    (scoredRecords sim qVec records).length = records.length := by
  rw [scoredRecords]
  rw [(List.mergeSort_perm _ _).length_eq, List.length_map]

/-- C7 (amended): `retrieveSimilar` returns `ok []` on an absent or empty
corpus for every embedding outcome (so without consulting the embedding
call); and on success it returns at most `topK` chunks, in non-increasing
score order (stable sort; equal scores keep corpus order), whose total
content length is ≤ `maxCharsTotal`, the i-th chunk's content being its
corpus record's content truncated to exactly the budget remaining after the
chunks before it (so a record that fits is included unmodified, and one that
would overflow is cut to exactly the remaining budget), and it stops early
exactly when fewer than 200 budget characters remain. -/
theorem retrieveSimilar_spec :
    (∀ sim embed topK maxChars, retrieveSimilar sim none embed topK maxChars = .ok []) ∧
    (∀ sim idx embed topK maxChars, idx.records = [] →
      retrieveSimilar sim (some idx) embed topK maxChars = .ok []) ∧
    (∀ sim idx qVec topK maxChars l,
      retrieveSimilar sim (some idx) (.ok qVec) topK maxChars = .ok l →
      l.length ≤ topK ∧
      List.Chain' (fun a b => b.score ≤ a.score) l ∧
      (l.map fun c => c.content.length).sum ≤ maxChars ∧
      (∀ i (hi : i < l.length), ∃ r ∈ idx.records,
        (l.get ⟨i, hi⟩).title = r.title ∧ (l.get ⟨i, hi⟩).file = r.file ∧
        (l.get ⟨i, hi⟩).content = String.mk (r.content.toList.take
          (maxChars - ((l.take i).map fun c => c.content.length).sum))) ∧
      (l.length < topK → l.length < idx.records.length →
        maxChars - (l.map fun c => c.content.length).sum < 200)) := by
  refine ⟨fun sim embed topK maxChars => rfl, ?_, ?_⟩
  · intro sim idx embed topK maxChars hrec
    rw [retrieveSimilar.eq_def]
    dsimp only
    rw [if_pos (by simp [hrec])]
  · intro sim idx qVec topK maxChars l hl
    rw [retrieveSimilar] at hl
    by_cases hrec : idx.records.isEmpty
    · rw [if_pos hrec] at hl
      have hl2 : l = [] := by
        injection hl with h
        exact h.symm
      subst hl2
      rw [List.isEmpty_iff] at hrec
      refine ⟨by simp, by simp, by simp, by intro i hi; simp at hi, ?_⟩
      intro _ h2
      rw [hrec] at h2
      simp at h2
    · rw [if_neg hrec] at hl
      have hl2 : selectChunksGo (scoredRecords sim qVec idx.records) topK maxChars 0 = l := by
        injection hl with h
      subst hl2
      refine ⟨selectChunksGo_length _ _ _ _, ?_, ?_, ?_, ?_⟩
      · exact selectChunksGo_chain _ _ _ _ (scoredRecords_pairwise sim qVec idx.records)
      · have := selectChunksGo_sum (scoredRecords sim qVec idx.records) topK maxChars 0
        omega
      · intro i hi
        obtain ⟨r2, hr2, h1, h2, h3⟩ :=
          selectChunksGo_content (scoredRecords sim qVec idx.records) topK maxChars 0 i hi
        obtain ⟨r, hr, hrt, hrf, hrc, _⟩ := scoredRecords_mem sim qVec idx.records hr2
        refine ⟨r, hr, h1.trans hrt, h2.trans hrf, ?_⟩
        rw [h3, hrc, Nat.zero_add]
      · intro h1 h2
        have := selectChunksGo_stop (scoredRecords sim qVec idx.records) topK maxChars 0 h1
          (by rw [scoredRecords_length sim qVec idx.records]; exact h2)
        omega

/-- The claim's "strictly descending by score", stated over the embedded
retrieval function. -/
def RetrieveStrictDescending : Prop :=
  ∀ sim ragIndex embedResult topK maxChars l,
    retrieveSimilar sim ragIndex embedResult topK maxChars = Except.ok l →
    List.Chain' (fun a b : RetrievedChunk => b.score < a.score) l

theorem selectChunksGo_length_le (l : List RetrievedChunk) :
    ∀ (room maxChars used : Nat), (selectChunksGo l room maxChars used).length ≤ l.length := by
  induction l with
  | nil => intro room maxChars used; simp [selectChunksGo]
  | cons r rest ih =>
    intro room maxChars used
    rw [selectChunksGo]
    by_cases hroom : room = 0
    · simp [hroom]
    · rw [if_neg hroom]
      by_cases hrem : maxChars - used < 200
      · simp [hrem]
      · rw [if_neg hrem]
        dsimp only
        rw [List.length_cons, List.length_cons]
        have := ih (room - 1) maxChars
          (used + (String.mk (r.content.toList.take (maxChars - used))).length)
        omega

/-- C7 counterexample: two corpus records with identical embeddings receive
identical scores, the greedy selection keeps both (stable sort, generous
budget), and the selected list is then not strictly descending by score. -/
theorem retrieve_not_strictly_descending : ¬ RetrieveStrictDescending := by
  intro h
  set idx := RagIndex.mk [RagRecord.mk "t1" "f1" "c1" [1], RagRecord.mk "t2" "f2" "c2" [1]] with hidx
  set l := selectChunksGo (scoredRecords (fun _ _ => 0) [1] idx.records) 4 3000 0 with hldef
  have hres : retrieveSimilar (fun _ _ => 0) (some idx) (Except.ok [1]) 4 3000 = Except.ok l := by
    rw [retrieveSimilar.eq_def]
    dsimp only
    rw [if_neg (by simp [hidx])]
  have hchain := h _ _ _ _ _ _ hres
  -- every selected chunk has score 0 and content of length ≤ 2
  have hmem0 : ∀ c ∈ l, c.score = 0 ∧ c.content.length ≤ 2 := by
    intro c hc
    obtain ⟨r2, hr2, _, _, hsc, n, hcn⟩ :=
      selectChunksGo_mem (scoredRecords (fun _ _ => 0) [1] idx.records) 4 3000 0 c hc
    obtain ⟨r, hr, _, _, hrc, hrs⟩ := scoredRecords_mem (fun _ _ => 0) [1] idx.records hr2
    constructor
    · rw [hsc, hrs]
    · rw [hcn, hrc]
      have hrlen : r.content.toList.length ≤ 2 := by
        rw [hidx] at hr
        simp only [List.mem_cons, List.mem_singleton] at hr
        rcases hr with rfl | rfl | hfalse
        · decide
        · decide
        · simp at hfalse
      calc (String.mk (r.content.toList.take n)).length
          = (r.content.toList.take n).length := rfl
        _ ≤ r.content.toList.length := by rw [List.length_take]; omega
        _ ≤ 2 := hrlen
  -- the selection cannot stop early: the budget is generous
  have hlen2 : l.length = 2 := by
    have hle : l.length ≤ 2 := by
      have := selectChunksGo_length_le (scoredRecords (fun _ _ => 0) [1] idx.records) 4 3000 0
      rw [scoredRecords_length] at this
      simpa [hidx] using this
    by_contra hne
    have hlt2 : l.length < 2 := by omega
    have hsumle : (l.map fun c => c.content.length).sum ≤ 4 := by
      have hbound : ∀ x ∈ l.map fun c => c.content.length, x ≤ 2 := by
        intro x hx
        rw [List.mem_map] at hx
        obtain ⟨c, hc, rfl⟩ := hx
        exact (hmem0 c hc).2
      calc (l.map fun c => c.content.length).sum
          ≤ (l.map fun c => c.content.length).length • 2 :=
            List.sum_le_card_nsmul _ 2 hbound
        _ = l.length * 2 := by rw [List.length_map]; simp [Nat.smul_one_eq_cast]
        _ ≤ 4 := by omega
    have := selectChunksGo_stop (scoredRecords (fun _ _ => 0) [1] idx.records) 4 3000 0
      (by rw [← hldef]; omega) (by rw [← hldef, scoredRecords_length]; simpa [hidx] using hlt2)
    rw [← hldef] at this
    omega
  -- a two-element list with equal scores is not strictly descending
  match l, hchain, hmem0, hlen2 with
  | x :: y :: rest, hchain, hmem0, hlen2 =>
    rw [List.chain'_cons] at hchain
    have hx := (hmem0 x (by simp)).1
    have hy := (hmem0 y (by simp)).1
    rw [hx, hy] at hchain
    exact absurd hchain.1 (by norm_num)
theorem retrieveSimilar_spec_witness :
    retrieveSimilar (fun _ _ => (0:ℚ)) none (.ok []) 3 1000 = .ok [] ∧
    retrieveSimilar (fun _ _ => (0:ℚ)) (some (RagIndex.mk [])) (.ok [1]) 3 1000 = .ok [] ∧
    ([RetrievedChunk.mk "t" "f" "c" 0].length ≤ 3 ∧
     List.Chain' (fun a b => b.score ≤ a.score) [RetrievedChunk.mk "t" "f" "c" 0] ∧
     (([RetrievedChunk.mk "t" "f" "c" 0].map fun c => c.content.length).sum ≤ 1000) ∧
     (∀ i (hi : i < ([RetrievedChunk.mk "t" "f" "c" 0] : List RetrievedChunk).length),
        ∃ r ∈ (RagIndex.mk [RagRecord.mk "t" "f" "c" [1]]).records,
          (([RetrievedChunk.mk "t" "f" "c" 0] : List RetrievedChunk).get ⟨i, hi⟩).title = r.title ∧
          (([RetrievedChunk.mk "t" "f" "c" 0] : List RetrievedChunk).get ⟨i, hi⟩).file = r.file ∧
          (([RetrievedChunk.mk "t" "f" "c" 0] : List RetrievedChunk).get ⟨i, hi⟩).content =
            String.mk (r.content.toList.take
              (1000 - ((([RetrievedChunk.mk "t" "f" "c" 0] : List RetrievedChunk).take i).map
                fun c => c.content.length).sum))) ∧
     (([RetrievedChunk.mk "t" "f" "c" 0] : List RetrievedChunk).length < 3 →
        [RetrievedChunk.mk "t" "f" "c" 0].length <
          (RagIndex.mk [RagRecord.mk "t" "f" "c" [1]]).records.length →
        1000 - (([RetrievedChunk.mk "t" "f" "c" 0].map fun c => c.content.length).sum) < 200)) := by
  refine ⟨retrieveSimilar_spec.1 _ _ 3 1000, retrieveSimilar_spec.2.1 _ _ _ 3 1000 rfl, ?_⟩
  apply retrieveSimilar_spec.2.2 (fun _ _ => 0) (RagIndex.mk [RagRecord.mk "t" "f" "c" [1]])
    [1] 3 1000
  rw [retrieveSimilar.eq_def]
  dsimp only
  rw [if_neg (by simp)]
  congr 1
  rw [scoredRecords]
  simp only [List.map_cons, List.map_nil, List.mergeSort_singleton]
  decide
theorem startsWithCI_decomp : ∀ (pat l : List Char), startsWithCI pat l = true →
    pat.length ≤ l.length ∧ (l.take pat.length).map Char.toLower = pat := by
  intro pat
  induction pat with
  | nil => intro l _; simp
  | cons p ps ih =>
    intro l h
    match l with
    | [] => simp [startsWithCI] at h
    | c :: cs =>
      rw [startsWithCI, Bool.and_eq_true] at h
      obtain ⟨h1, h2⟩ := h
      obtain ⟨ha, hb⟩ := ih cs h2
      refine ⟨by simpa using ha, ?_⟩
      have hlen : (p :: ps).length - 1 = ps.length := by simp
      rw [List.take_cons, List.map_cons, hlen, hb]
      · simp at h1
        rw [h1]
      · simp

theorem markerSplitGo_decomp : ∀ (l rest : List Char), markerSplitGo l = some rest →
    ∃ pre occ, l = pre ++ occ ++ rest ∧
      occ.map Char.toLower = "user request:".toList ∧
      ∀ i < pre.length, startsWithCI "user request:".toList (l.drop i) = false := by
  intro l
  induction l with
  | nil => intro rest h; simp [markerSplitGo] at h
  | cons c cs ih =>
    intro rest h
    rw [markerSplitGo] at h
    by_cases hsw : startsWithCI "user request:".toList (c :: cs) = true
    · rw [if_pos hsw] at h
      injection h with h
      obtain ⟨hlen, htake⟩ := startsWithCI_decomp _ _ hsw
      refine ⟨[], (c :: cs).take 13, ?_, ?_, by simp⟩
      · rw [List.nil_append, ← h, List.take_append_drop]
      · simpa using htake
    · rw [if_neg hsw] at h
      obtain ⟨pre, occ, heq, hocc, hno⟩ := ih rest h
      refine ⟨c :: pre, occ, by rw [heq]; rfl, hocc, ?_⟩
      intro i hi
      match i with
      | 0 => simpa using hsw
      | j + 1 =>
        rw [List.drop_succ_cons]
        exact hno j (by simpa using hi)

theorem markerSplitGo_none : ∀ (l : List Char), markerSplitGo l = none →
    ∀ i, startsWithCI "user request:".toList (l.drop i) = false := by
  intro l
  induction l with
  | nil => intro _ i; rw [List.drop_nil]; rfl
  | cons c cs ih =>
    intro h i
    rw [markerSplitGo] at h
    by_cases hsw : startsWithCI "user request:".toList (c :: cs) = true
    · rw [if_pos hsw] at h; exact absurd h (by simp)
    · rw [if_neg hsw] at h
      match i with
      | 0 => simpa using hsw
      | j + 1 =>
        rw [List.drop_succ_cons]
        exact ih h j

theorem dropWhile_idem (p : Char → Bool) (l : List Char) :
    (l.dropWhile p).dropWhile p = l.dropWhile p := by
  induction l with
  | nil => rfl
  | cons c cs ih =>
    rw [List.dropWhile_cons]
    by_cases hc : p c = true
    · rw [if_pos hc]; exact ih
    · rw [if_neg hc, List.dropWhile_cons, if_neg hc]

theorem jsTrim_dropWhile (rest : List Char) :
    jsTrim (String.mk (rest.dropWhile isWsChar)) = jsTrim (String.mk rest) := by
  show String.mk (((String.mk (rest.dropWhile isWsChar)).toList.dropWhile
      isWsChar).reverse.dropWhile isWsChar).reverse =
    String.mk (((String.mk rest).toList.dropWhile isWsChar).reverse.dropWhile isWsChar).reverse
  have h1 : (String.mk (rest.dropWhile isWsChar)).toList = rest.dropWhile isWsChar := rfl
  have h2 : (String.mk rest).toList = rest := rfl
  rw [h1, h2, dropWhile_idem]
/-- C10 counterexample: the claim says that whenever the marker occurs,
the result is the trimmed text following it.  But the source guards on the
truthiness of the captured group: when nothing (or only whitespace) follows
`USER REQUEST:`, the empty capture is falsy and the function falls through
to the meta-block-stripping branch, here returning the whole input. -/
theorem extract_request_marker_fallthrough :
    ¬ (∀ (s : String) (rest : List Char), markerSplitGo s.toList = some rest →
        extractUserRequest s = jsTrim (String.mk rest)) := by
  intro h
  have h1 := h "a USER REQUEST:" [] (by decide)
  have h2 : extractUserRequest "a USER REQUEST:" = "a USER REQUEST:" := by decide
  rw [h2] at h1
  exact absurd h1 (by decide)
/-- C10 (amended): when the case-insensitive marker `USER REQUEST:` occurs in
the input, `markerSplitGo` finds its first occurrence (the input decomposes as
prefix ++ occurrence ++ rest with no earlier occurrence); if some
non-whitespace text follows the marker the result is that text trimmed, but if
only whitespace (possibly nothing) follows, the capture is falsy and the
function falls through to the no-marker behaviour.  Without a marker (and in
that fallthrough), the meta-block-stripped input is trimmed and returned,
unless stripping plus trimming leaves nothing, in which case the trimmed
original is returned. -/
theorem extract_user_request_spec :
    (∀ (s : String) (rest : List Char), markerSplitGo s.toList = some rest →
      (∃ pre occ, s.toList = pre ++ occ ++ rest ∧
        occ.map Char.toLower = "user request:".toList ∧
        ∀ i < pre.length,
          startsWithCI "user request:".toList (s.toList.drop i) = false) ∧
      (rest.dropWhile isWsChar ≠ [] →
        extractUserRequest s = jsTrim (String.mk rest)) ∧
      (rest.dropWhile isWsChar = [] →
        extractUserRequest s =
          if (jsTrim (stripMetaBlocks s)).isEmpty then jsTrim s
          else jsTrim (stripMetaBlocks s))) ∧
    (∀ s : String, markerSplitGo s.toList = none →
      (∀ i, startsWithCI "user request:".toList (s.toList.drop i) = false) ∧
      extractUserRequest s =
        if (jsTrim (stripMetaBlocks s)).isEmpty then jsTrim s
        else jsTrim (stripMetaBlocks s)) := by
  constructor
  · intro s rest hm
    refine ⟨markerSplitGo_decomp s.toList rest hm, ?_, ?_⟩
    · intro hne
      rw [extractUserRequest, hm]
      dsimp only
      rw [if_pos (by simpa [List.isEmpty_iff] using hne)]
      exact jsTrim_dropWhile rest
    · intro he
      rw [extractUserRequest, hm]
      dsimp only
      rw [if_neg (by simpa [List.isEmpty_iff] using he)]
      by_cases hc : (jsTrim (stripMetaBlocks s)).isEmpty = true
      · rw [if_pos hc, if_neg (by simpa using hc)]
      · rw [if_neg hc, if_pos (by simpa using hc)]
  · intro s hm
    refine ⟨markerSplitGo_none s.toList hm, ?_⟩
    rw [extractUserRequest, hm]
    by_cases hc : (jsTrim (stripMetaBlocks s)).isEmpty = true
    · rw [if_pos hc]
      dsimp only
      rw [if_neg (by simpa using hc)]
    · rw [if_neg hc]
      dsimp only
      rw [if_pos (by simpa using hc)]
theorem extract_user_request_spec_witness :
    extractUserRequest "x USER REQUEST:  done " = "done" ∧
    extractUserRequest "a USER REQUEST: " = "a USER REQUEST:" ∧
    extractUserRequest "plain text" = "plain text" := by
  refine ⟨?_, ?_, ?_⟩
  · have h := (extract_user_request_spec.1 "x USER REQUEST:  done "
      "  done ".toList (by decide)).2.1 (by decide)
    rw [h]; decide
  · have h := (extract_user_request_spec.1 "a USER REQUEST: "
      [' '] (by decide)).2.2 (by decide)
    rw [h]; decide
  · have h := (extract_user_request_spec.2 "plain text" (by decide)).2
    rw [h]; decide
